import Mathlib

/-!
Verification of the Universal_Scraper backend against its specification.

This file gives a shallow embedding, in Lean 4, of the parts of the Python
source that the checked properties talk about:

* `backend/utils/validators.py` (`normalize_url`, together with a model of
  the CPython `urllib.parse.urlparse` component splitting it relies on:
  WHATWG character stripping, scheme/netloc/fragment/query splitting, the
  netloc validation raises, and the `;parameters` split),
* `backend/scraper/pdf_processor.py` (`is_menu_pdf`),
* `backend/ai/structured_extractor.py` (`_detect_data_type`, `extract`),
* `backend/rag/rag_service.py` (`answer_query`),
* `backend/rag/chunker.py` (`chunk_text` and its sentence splitting),
* `backend/storage/metadata_db.py` (`update_job_status`, the set of methods
  the class actually defines),
* `backend/api/routes/scrape.py` (the post-crawl indexing step),
* `backend/api/routes/export.py` (`export_data`),
* `backend/scraper/fetcher.py` (`_fetch_httpx`).

External boundaries (the LLM, the vector store, the network, the clock) are
modelled as explicit oracle parameters; machine-level details (wall-clock
timing, the database engine) are modelled as pure state transformations on
records mirroring the SQLAlchemy models.
-/

namespace UniversalScraper

set_option maxRecDepth 10000

/-! ## Python string primitives -/

/-- Python `needle in haystack` (substring containment) on lists of
characters: some tail of the haystack starts with the needle. -/
def listContains : List Char → List Char → Bool
  | [], needle => needle.isEmpty
  | h :: t, needle => needle.isPrefixOf (h :: t) || listContains t needle

/-- Python `needle in haystack` on strings. -/
def strContains (hay needle : String) : Bool :=
  listContains hay.toList needle.toList

/-- Python `str.lower` on one character, modelled for ASCII and the
Latin-1 uppercase letters (which covers every character the source
compares case-insensitively). -/
def pyCharLower (c : Char) : Char :=
  if 65 ≤ c.toNat ∧ c.toNat ≤ 90 then Char.ofNat (c.toNat + 32)
  else if 192 ≤ c.toNat ∧ c.toNat ≤ 222 ∧ c.toNat ≠ 215 then Char.ofNat (c.toNat + 32)
  else c

/-- Python `str.lower` on a string. -/
def pyLower (s : String) : String :=
  String.mk (s.toList.map pyCharLower)

/-! ## PDF processor: menu detection (`pdf_processor.py`, `is_menu_pdf`) -/

/-- The fixed multilingual keyword list of `PDFProcessor.is_menu_pdf`. -/
def menu_keywords : List String :=
  ["menu", "speisekarte", "carte", "menü",
   "appetizer", "vorspeise", "entrée",
   "main course", "hauptgericht", "plat principal",
   "dessert", "nachspeise",
   "beverage", "getränke", "boisson", "drinks",
   "price", "preis", "prix", "€", "$", "£"]

/-- The number of distinct keywords of `menu_keywords` occurring in the
lowercased text. In the source this is
`matches = sum(1 for keyword in menu_keywords if keyword in text_lower)`;
the list has no duplicate entries, so the sum counts distinct keywords. -/
def menuKeywordMatches (text : String) : Nat :=
  (menu_keywords.filter (fun kw => strContains (pyLower text) kw)).length

/-- `PDFProcessor.is_menu_pdf`: classify as a menu when 3 or more keywords
occur in the lowercased text. -/
def is_menu_pdf (text : String) : Bool :=
  decide (3 ≤ menuKeywordMatches text)

/-! ## Structured extractor (`structured_extractor.py`) -/

/-- Keyword list for menu detection in `_detect_data_type`. -/
def detect_menu_keywords : List String :=
  ["menu", "food", "drink", "dish", "burger", "pizza", "items", "meal",
   "breakfast", "lunch", "dinner"]

/-- Keyword list for business-hours detection in `_detect_data_type`. -/
def detect_hours_keywords : List String :=
  ["hours", "open", "close", "opening", "closing", "schedule", "when open"]

/-- Keyword list for contact-info detection in `_detect_data_type`. -/
def detect_contact_keywords : List String :=
  ["contact", "phone", "email", "address", "location", "reach"]

/-- Keyword list for pricing detection in `_detect_data_type`. -/
def detect_pricing_keywords : List String :=
  ["price", "cost", "how much", "pricing", "fee"]

/-- `StructuredExtractor._detect_data_type(query, context)`. The source
lowercases both arguments but then tests only `query_lower`; the
`context_lower` binding is dead code, reproduced here verbatim. -/
def detect_data_type (query context : String) : String :=
  let query_lower := pyLower query
  let _context_lower := pyLower context
  if detect_menu_keywords.any (fun kw => strContains query_lower kw) then "menu"
  else if detect_hours_keywords.any (fun kw => strContains query_lower kw) then "business_hours"
  else if detect_contact_keywords.any (fun kw => strContains query_lower kw) then "contact_info"
  else if detect_pricing_keywords.any (fun kw => strContains query_lower kw) then "pricing"
  else "none"

/-- Result shape of `StructuredExtractor.extract`. The parsed JSON payload
is abstracted to a `String`-typed blob (its structure is produced by the
external LLM and the JSON parser, both at the system boundary). The
confidence is the fixed constant 0.9 on success and 0.0 otherwise, kept
here as a rational. -/
structure ExtractResult where
  data_type : String
  has_structured_data : Bool
  structured_data : Option String
  confidence : ℚ
deriving DecidableEq, Repr

/-- `StructuredExtractor.extract(query, answer, context="")`.
`llmExtract answer context data_type` models `_extract_with_schema`
(prompt construction, the Groq JSON call, and `json.loads`), returning
`none` on any failure or falsy parse result. The detection call is
`self._detect_data_type(query, context or answer)`: Python `or` picks
`answer` exactly when `context` is the empty string. -/
def extract (llmExtract : String → String → String → Option String)
    (query answer context : String) : ExtractResult :=
  let data_type := detect_data_type query (if context.isEmpty then answer else context)
  if data_type = "none" then
    { data_type := "none", has_structured_data := false
      structured_data := none, confidence := 0 }
  else
    match llmExtract answer context data_type with
    | some sd =>
        { data_type := data_type, has_structured_data := true
          structured_data := some sd, confidence := 9 / 10 }
    | none =>
        { data_type := data_type, has_structured_data := false
          structured_data := none, confidence := 0 }

/-! ## RAG service (`rag_service.py`, `RAGService.answer_query`) -/

/-- Source attribution of one retrieved chunk, as reshaped by
`Retriever.search`. -/
structure SearchSource where
  url : String
  title : String
  domain : String
  chunk_index : Nat
deriving DecidableEq, Repr

/-- One formatted retrieval result from `Retriever.search`. -/
structure SearchResult where
  text : String
  score : ℚ
  source : SearchSource
  id : String
deriving DecidableEq, Repr

/-- One entry of the `sources` list built in step 4 of `answer_query`. -/
structure RagSource where
  title : String
  url : String
  domain : String
  score : ℚ
deriving DecidableEq, Repr

/-- Return value of `answer_query`. `llm_calls` counts invocations of
`self.groq_client.generate`; `extraction` is present exactly when step 5
ran (the optional structured-extraction merge); wall-clock
`response_time_ms` is not modelled. -/
structure RagAnswer where
  query : String
  answer : String
  sources : List RagSource
  search_results : List SearchResult
  llm_calls : Nat
  extraction : Option ExtractResult
deriving DecidableEq, Repr

/-- The fixed no-result answer text of `answer_query`. -/
def no_results_answer : String :=
  "I couldn't find any relevant information in the scraped content to answer your question. Please make sure you've scraped content related to this topic."

/-- The fixed fallback answer used when the LLM call raises. -/
def llm_error_answer : String :=
  "I encountered an error while generating the answer. Please try again."

/-- Context block of step 2: each result rendered as
`[Source N: title - url]\n<text>\n`, joined by `\n---\n`, numbering
starting at 1 in retrieval order. -/
def ragContext (results : List SearchResult) : String :=
  String.intercalate "\n---\n"
    ((List.enumFrom 1 results).map (fun p =>
      "[Source " ++ toString p.1 ++ ": " ++ p.2.source.title ++ " - " ++
        p.2.source.url ++ "]\n" ++ p.2.text ++ "\n"))

/-- `RAGService.answer_query`. The retrieval step is the `results`
parameter (what `Retriever.search` returned for the query); `llm` models
`groq_client.generate` on (system prompt, user prompt), raising via
`Except.error`; `llmExtract` is handed to `extract` when structured
extraction is requested. The empty-retrieval branch returns before any
LLM use, mirroring the early return in the source. -/
def answer_query (llm : String → String → Except String String)
    (llmExtract : String → String → String → Option String)
    (query : String) (results : List SearchResult)
    (extract_structured : Bool) : RagAnswer :=
  if results.isEmpty then
    { query := query, answer := no_results_answer, sources := []
      search_results := results, llm_calls := 0, extraction := none }
  else
    let context := ragContext results
    let system_prompt := "You are a helpful AI assistant that answers questions based on provided context."
    let user_prompt := "Context from scraped web pages:\n\n" ++ context ++
      "\n\n---\n\nUser Question: " ++ query ++
      "\n\nPlease provide a clear, concise answer based on the context above."
    let answer :=
      match llm system_prompt user_prompt with
      | Except.ok a => a
      | Except.error _ => llm_error_answer
    let sources := results.map (fun r =>
      { title := r.source.title, url := r.source.url
        domain := r.source.domain, score := r.score : RagSource })
    { query := query, answer := answer, sources := sources
      search_results := results, llm_calls := 1
      extraction :=
        if extract_structured then some (extract llmExtract query answer context)
        else none }

/-! ## Metadata database (`metadata_db.py`) -/

/-- `JobStatus` enumeration from `storage/models.py`. -/
inductive JobStatus where
  | pending
  | running
  | completed
  | failed
  | cancelled
deriving DecidableEq, Repr

/-- The membership test `status in [JobStatus.COMPLETED, JobStatus.FAILED,
JobStatus.CANCELLED]` from `update_job_status`. -/
def isTerminalStatus (s : JobStatus) : Bool :=
  decide (s = JobStatus.completed ∨ s = JobStatus.failed ∨ s = JobStatus.cancelled)

/-- The columns of a `ScrapeJob` row touched by `update_job_status`,
with timestamps as abstract `Nat` instants (each call receives the
current `datetime.utcnow()` as an explicit argument). -/
structure ScrapeJobRow where
  status : JobStatus
  started_at : Option Nat
  completed_at : Option Nat
  error_message : Option String
deriving DecidableEq, Repr

/-- A freshly created job, as inserted by `create_job`: status PENDING,
no timestamps, no error. -/
def fresh_job : ScrapeJobRow :=
  { status := JobStatus.pending, started_at := none
    completed_at := none, error_message := none }

/-- `MetadataDB.update_job_status(job_id, status, error_message)`, as a
transformation of the job row. `_job_started` reads the current
`started_at`; the `elif` chain sets `completed_at` on every call whose
status is terminal; `if error_message:` is Python truthiness, so an
empty-string message is not recorded. -/
def update_job_status (job : ScrapeJobRow) (status : JobStatus)
    (error_message : Option String) (now : Nat) : ScrapeJobRow :=
  let job1 := { job with status := status }
  let job2 :=
    if status = JobStatus.running ∧ job.started_at = none then
      { job1 with started_at := some now }
    else if isTerminalStatus status then
      { job1 with completed_at := some now }
    else job1
  match error_message with
  | some msg => if msg = "" then job2 else { job2 with error_message := some msg }
  | none => job2

/-- One call in a sequence of `update_job_status` invocations. -/
structure StatusCall where
  status : JobStatus
  error_message : Option String
  now : Nat
deriving DecidableEq, Repr

/-- Replay a sequence of `update_job_status` calls on one job row. -/
def run_status_updates (job : ScrapeJobRow) (calls : List StatusCall) : ScrapeJobRow :=
  calls.foldl (fun j c => update_job_status j c.status c.error_message c.now) job

/-- The method names the `MetadataDB` class in `metadata_db.py` actually
defines (its entire public and private surface). -/
def metadata_db_methods : List String :=
  ["__init__", "initialize", "get_session",
   "create_job", "get_job", "update_job_status", "_job_started",
   "update_job_progress", "list_jobs",
   "add_scraped_url", "get_urls_by_job", "url_exists",
   "log_search_query", "get_recent_searches", "close"]

/-- The processing-state columns of a `ScrapedURL` row
(`storage/models.py`): `chunks_generated` defaults to 0 and `embedded` is
a 0/1 flag defaulting to 0. -/
structure ScrapedURLRow where
  id : Nat
  chunks_generated : Nat
  embedded : Nat
deriving DecidableEq, Repr

/-- The database effect on one `ScrapedURL` row of the per-URL body of
`process_scraped_data_to_rag` (`scrape.py` lines 144-187). The body ends
with `await db.mark_url_as_embedded(url_id=..., chunks_generated=...)`;
Python resolves that attribute on `MetadataDB` at the call, raising
`AttributeError` when the class defines no such method, and the
surrounding `except Exception` swallows the error, leaving the row
untouched. The then-branch records what the call site asks for. -/
def index_scraped_url (row : ScrapedURLRow) (chunks : Nat) : ScrapedURLRow :=
  if "mark_url_as_embedded" ∈ metadata_db_methods then
    { row with chunks_generated := chunks, embedded := 1 }
  else
    row

/-! ## Static fetch path (`fetcher.py`, `Fetcher._fetch_httpx`) -/

/-- An HTTP response as seen by the retry loop. -/
structure HttpResponse where
  status_code : Nat
  text : String
  headers : List (String × String)
  url : String
deriving DecidableEq, Repr

/-- Outcome of one `self.client.get(url)` attempt: a response, an
`httpx.TimeoutException`, an `httpx.RequestError`, or any other
exception. -/
inductive AttemptOutcome where
  | response (r : HttpResponse)
  | timeout
  | requestError (msg : String)
  | otherError (msg : String)
deriving DecidableEq, Repr

/-- The dictionary `_fetch_httpx` returns on a 200 response. -/
structure FetchResult where
  status_code : Nat
  content : String
  headers : List (String × String)
  url : String
  pdf_links : List String
deriving DecidableEq, Repr

/-- Observable trace of one `_fetch_httpx` call: the returned value,
how many attempts were made, and the durations (in seconds) of the
exponential-backoff sleeps between attempts, in order. The fixed
rate-limit sleep happens once before the first attempt and is not part
of this list. -/
structure FetchTrace where
  result : Option FetchResult
  attempts : Nat
  backoff_delays : List Nat
deriving DecidableEq, Repr

/-- The retry loop `for attempt in range(retry_count)` of `_fetch_httpx`,
entered at index `attempt`. `net i` is the outcome of the HTTP attempt
with loop index `i`. A 200 response returns the page; 404, 403 and 401
return `None` without retrying; any other status, a timeout or a request
error fall through to the backoff `await asyncio.sleep(2 ** attempt)`
(skipped on the last iteration) and retry; any other exception returns
`None` immediately. After the loop, `None`. -/
def fetchAttempts (net : Nat → AttemptOutcome) (retry_count : Nat) :
    Nat → Nat → FetchTrace
  | 0, attempt => { result := none, attempts := attempt, backoff_delays := [] }
  | remaining + 1, attempt =>
      let proceed : FetchTrace :=
        let rest := fetchAttempts net retry_count remaining (attempt + 1)
        { rest with backoff_delays :=
            (if attempt < retry_count - 1 then [2 ^ attempt] else []) ++ rest.backoff_delays }
      match net attempt with
      | AttemptOutcome.response r =>
          if r.status_code = 200 then
            { result := some { status_code := r.status_code, content := r.text
                               headers := r.headers, url := r.url, pdf_links := [] }
              attempts := attempt + 1, backoff_delays := [] }
          else if r.status_code = 404 ∨ r.status_code = 403 ∨ r.status_code = 401 then
            { result := none, attempts := attempt + 1, backoff_delays := [] }
          else proceed
      | AttemptOutcome.timeout => proceed
      | AttemptOutcome.requestError _ => proceed
      | AttemptOutcome.otherError _ =>
          { result := none, attempts := attempt + 1, backoff_delays := [] }

/-- `Fetcher._fetch_httpx(url, retry_count, respect_robots)`: the
robots.txt gate (returning `None` before any attempt when fetching is
disallowed), the rate-limit sleep (not traced), then the retry loop,
entered with `retry_count` iterations remaining and `attempt = 0`. -/
def fetch_httpx (net : Nat → AttemptOutcome) (respect_robots robots_allow : Bool)
    (retry_count : Nat) : FetchTrace :=
  if respect_robots && !robots_allow then
    { result := none, attempts := 0, backoff_delays := [] }
  else
    fetchAttempts net retry_count retry_count 0

/-! ## Export endpoint (`export.py`, `export_data`) -/

/-- FastAPI `HTTPException` carrying a status code and a detail string. -/
structure HTTPException where
  status_code : Nat
  detail : String
deriving DecidableEq, Repr

/-- Starlette renders `str(HTTPException(code, detail))` as
`"code: detail"`; this is the string the catch-all handler logs and
re-raises with. -/
def exceptionStr (e : HTTPException) : String :=
  toString e.status_code ++ ": " ++ e.detail

/-- The file response built by `export_data` on success. -/
structure ExportFile where
  content : String
  media_type : String
  filename : String
deriving DecidableEq, Repr

/-- An export request: the structured-data object (abstract, of type α),
the requested format, and an optional filename. -/
structure ExportRequest (α : Type) where
  data : α
  format : String
  filename : Option String

/-- The body of the `try` block in `export_data`. The renderers
(`json.dumps`, `dict_to_csv`, `dict_to_markdown`) and the two
`data.get(...)` lookups are passed as functions of the abstract data
object. `request.filename or default_filename` falls back on `None` and
on the empty string (Python truthiness). Unsupported formats raise
`HTTPException(status_code=400, ...)`. -/
def export_body {α : Type} (render_json render_csv render_md : α → String)
    (dataTypeOf entityOf : α → Option String)
    (req : ExportRequest α) : Except HTTPException ExportFile :=
  let export_format := pyLower req.format
  let data_type := (dataTypeOf req.data).getD "export"
  let default_filename := data_type ++ "_" ++ (entityOf req.data).getD "data"
  let filename :=
    match req.filename with
    | some f => if f = "" then default_filename else f
    | none => default_filename
  if export_format = "json" then
    Except.ok { content := render_json req.data, media_type := "application/json"
                filename := filename ++ ".json" }
  else if export_format = "csv" then
    Except.ok { content := render_csv req.data, media_type := "text/csv"
                filename := filename ++ ".csv" }
  else if export_format = "markdown" ∨ export_format = "md" then
    Except.ok { content := render_md req.data, media_type := "text/markdown"
                filename := filename ++ ".md" }
  else
    Except.error { status_code := 400, detail := "Unsupported format: " ++ export_format }

/-- The `POST /export/` handler `export_data`: the whole body runs inside
`try: ... except Exception as e: raise HTTPException(status_code=500,
detail=str(e))`. `HTTPException` subclasses `Exception`, so the 400
raised for an unsupported format is caught by this handler and re-raised
as a 500 whose detail is `str(e)`. -/
def export_data {α : Type} (render_json render_csv render_md : α → String)
    (dataTypeOf entityOf : α → Option String)
    (req : ExportRequest α) : Except HTTPException ExportFile :=
  match export_body render_json render_csv render_md dataTypeOf entityOf req with
  | Except.ok r => Except.ok r
  | Except.error e => Except.error { status_code := 500, detail := exceptionStr e }

/-! ## Chunker (`chunker.py`, `Chunker.chunk_text`) -/

/-- Python regex `\s` on the ASCII range (space, tab, newline, carriage
return, vertical tab, form feed). -/
def isPySpace (c : Char) : Bool :=
  c = ' ' || c = '\t' || c = '\n' || c = '\r' || c = '\x0b' || c = '\x0c'

/-- Sentence-ending punctuation of the split regex. -/
def isSentenceEnd (c : Char) : Bool :=
  c = '.' || c = '!' || c = '?'

/-- Whether the last character consumed into the current piece is
sentence-ending punctuation (the lookbehind of the split regex). -/
def headIsSentenceEnd : List Char → Bool
  | [] => false
  | c :: _ => isSentenceEnd c

/-- `re.split(r"(?<=[.!?])\s+", text)`: cut at every maximal whitespace
run whose preceding character is in `[.!?]`, dropping the matched
whitespace. `cur` holds the current piece in reverse; the boolean flag
records that the scanner is inside a matched whitespace run. -/
def sentenceSplitAux : List Char → List Char → Bool → List (List Char)
  | [], cur, _ => [cur.reverse]
  | c :: rest, cur, false =>
      if isPySpace c && headIsSentenceEnd cur then
        cur.reverse :: sentenceSplitAux rest [] true
      else
        sentenceSplitAux rest (c :: cur) false
  | c :: rest, cur, true =>
      if isPySpace c then sentenceSplitAux rest cur true
      else sentenceSplitAux rest [c] false

/-- Python `str.strip()`: drop ASCII whitespace from both ends. -/
def pyStrip (cs : List Char) : List Char :=
  ((cs.dropWhile isPySpace).reverse.dropWhile isPySpace).reverse

/-- `Chunker._split_sentences`: regex split, then
`[s.strip() for s in sentences if s.strip()]`. -/
def split_sentences (text : String) : List String :=
  ((sentenceSplitAux text.toList [] false).map pyStrip).filterMap
    (fun cs => if cs.isEmpty then none else some (String.mk cs))

/-- Helper for Python `str.split()` with no argument: `cur` holds the
word being scanned, in reverse. -/
def pyWordsAux : List Char → List Char → List (List Char)
  | [], cur => if cur.isEmpty then [] else [cur.reverse]
  | c :: rest, cur =>
      if isPySpace c then
        if cur.isEmpty then pyWordsAux rest []
        else cur.reverse :: pyWordsAux rest []
      else pyWordsAux rest (c :: cur)

/-- Python `str.split()` with no argument: split on whitespace runs,
dropping empty pieces; used for `word_count`. -/
def pyWords (cs : List Char) : List (List Char) :=
  pyWordsAux cs []

/-- One chunk dictionary as built by `Chunker._create_chunk`; the
caller-supplied metadata map is abstracted to an optional blob. -/
structure Chunk where
  text : String
  index : Nat
  char_count : Nat
  word_count : Nat
  metadata : Option String
deriving DecidableEq, Repr

/-- `Chunker._create_chunk(text, index, metadata)`. -/
def create_chunk (text : String) (index : Nat) (metadata : Option String) : Chunk :=
  { text := text, index := index, char_count := text.length
    word_count := (pyWords text.toList).length, metadata := metadata }

/-- Python list slice `s[-k:]` on a string: the whole string when
`k = 0`, otherwise the last `k` characters (all of them when the string
is shorter). -/
def pySliceLast (s : String) (k : Nat) : String :=
  if k = 0 then s else String.mk (s.toList.drop (s.toList.length - k))

/-- `" ".join(current_chunk)`. -/
def joinSpace : List String → String
  | [] => ""
  | [s] => s
  | s :: t :: rest => s ++ " " ++ joinSpace (t :: rest)

/-- The accumulation loop of `Chunker.chunk_text` over the sentence list.
State: `current_chunk` (sentences of the open chunk, in order),
`current_size` (sum of raw sentence lengths, as in the source), and the
chunks emitted so far. On a break, the open chunk is closed and the next
one is seeded with its trailing `chunk_overlap` characters (Python slice
semantics, guarded by `len(chunk_text) > chunk_overlap`) plus the
sentence that triggered the break. -/
def chunkLoop (chunk_size chunk_overlap : Nat) (metadata : Option String) :
    List String → List String → Nat → List Chunk → List Chunk
  | [], current_chunk, _current_size, chunks =>
      if current_chunk.isEmpty then chunks
      else chunks ++ [create_chunk (joinSpace current_chunk) chunks.length metadata]
  | s :: rest, current_chunk, current_size, chunks =>
      if current_size + s.length > chunk_size ∧ ¬ current_chunk.isEmpty then
        let ctext := joinSpace current_chunk
        let chunks1 := chunks ++ [create_chunk ctext chunks.length metadata]
        let overlap_text :=
          if ctext.length > chunk_overlap then pySliceLast ctext chunk_overlap else ctext
        chunkLoop chunk_size chunk_overlap metadata rest
          [overlap_text, s] (overlap_text.length + s.length) chunks1
      else
        chunkLoop chunk_size chunk_overlap metadata rest
          (current_chunk ++ [s]) (current_size + s.length) chunks

/-- `Chunker.chunk_text(text, metadata)` for a chunker configured with
the given `chunk_size` and `chunk_overlap`. Empty text yields no chunks. -/
def chunk_text (chunk_size chunk_overlap : Nat) (text : String)
    (metadata : Option String) : List Chunk :=
  if text.isEmpty then []
  else chunkLoop chunk_size chunk_overlap metadata (split_sentences text) [] 0 []

/-! ## URL normalization (`validators.py`, `normalize_url`)

The source delegates component splitting to `urllib.parse.urlparse` of
CPython 3.11, which this section embeds in layers mirroring the source:

1. `preprocess` — the WHATWG cleanup at the top of `urlsplit`: left-strip
   of C0 controls and space, then removal of every tab, carriage return
   and line feed;
2. `urlsplitList` — the pure splitting steps of `urlsplit` on the cleaned
   URL: optional scheme (a leading ASCII letter followed by letters,
   digits, `+`, `-`, `.`, terminated by the first colon of the string,
   lowercased), a netloc after a leading `//` running up to the first
   `/`, `?` or `#`, then the fragment cut at the first `#`, then the
   query cut at the first `?`;
3. the `ValueError` raises of `urlsplit`, all of which inspect only the
   netloc: the unbalanced-bracket check, `_check_bracketed_host` on a
   balanced bracketed host, and `_checknetloc` on a non-ASCII netloc.
   In the source these raises are interleaved with the splits of step 2;
   since the splits are pure and every raise depends only on the netloc,
   the model sequences them after the splits (`urlsplitChecksOK`), which
   raises exactly when the source does, in the source's priority order.
   A raise is modelled as `none`; the `ValueError` message text is not
   modelled. `urlsplit` calls two stdlib functions outside
   `urllib.parse` whose tables are environment data: `ipaddress.ip_address`
   (inside `_check_bracketed_host`) and `unicodedata.normalize("NFKC", s)`
   (inside `_checknetloc`). Exactly like the LLM and the network
   elsewhere in this file, these two calls are oracle parameters (`ip`,
   `nfkc`); every code path around them is embedded concretely, and none
   of the properties below depends on what the oracles return;
4. `urlparse` — `urlsplit`, then for a scheme of `uses_params` with a
   `;` in the path, `_splitparams` cuts the params off the last path
   segment. -/

/-- The CPython `scheme_chars` set: letters, digits, `+`, `-`, `.`. -/
def isSchemeChar (c : Char) : Bool :=
  c.isAlpha || c.isDigit || c = '+' || c = '-' || c = '.'

/-- Scheme detection of `urlsplit`: with `i` the position of the first
colon, the prefix `url[:i]` becomes the (lowercased) scheme when `i > 0`,
its first character is an ASCII letter and the rest are scheme
characters; otherwise the URL has no scheme. Returns the scheme and the
remainder after the colon. -/
def splitScheme (cs : List Char) : Option (List Char × List Char) :=
  match cs.dropWhile (fun c => c != ':') with
  | [] => none
  | _ :: rest =>
      match cs.takeWhile (fun c => c != ':') with
      | [] => none
      | c0 :: restPre =>
          if c0.isAlpha && restPre.all isSchemeChar then
            some ((c0 :: restPre).map pyCharLower, rest)
          else none

/-- Characters terminating the netloc in `_splitnetloc`. -/
def isNetlocEnd (c : Char) : Bool :=
  c = '/' || c = '?' || c = '#'

/-- Python `s.split(d, 1)` when `d` occurs, and `(s, "")` otherwise:
the part before the first occurrence of `d` and the part after it. -/
def splitAtFirst (delim : Char) (cs : List Char) : List Char × List Char :=
  (cs.takeWhile (fun c => c != delim),
   (cs.dropWhile (fun c => c != delim)).drop 1)

/-- The result of `urlsplit` (fields as character lists). -/
structure URLParts where
  scheme : List Char
  netloc : List Char
  path : List Char
  query : List Char
  fragment : List Char
deriving DecidableEq, Repr

/-- The last stage of `urlsplit`: after scheme and netloc are split off,
cut the fragment at the first `#` of the remainder, then the query at the
first `?` of what precedes it. -/
def urlsplitAfterNetloc (scheme netloc rest2 : List Char) : URLParts :=
  { scheme := scheme, netloc := netloc
    path := (splitAtFirst '?' (splitAtFirst '#' rest2).1).1
    query := (splitAtFirst '?' (splitAtFirst '#' rest2).1).2
    fragment := (splitAtFirst '#' rest2).2 }

/-- The netloc stage of `urlsplit`: when the remainder after the scheme
starts with `//`, the netloc runs up to the first `/`, `?` or `#`. -/
def urlsplitNoScheme (scheme rest1 : List Char) : URLParts :=
  if rest1.take 2 = ['/', '/'] then
    urlsplitAfterNetloc scheme
      ((rest1.drop 2).takeWhile (fun c => !isNetlocEnd c))
      ((rest1.drop 2).dropWhile (fun c => !isNetlocEnd c))
  else
    urlsplitAfterNetloc scheme [] rest1

/-- CPython `urlsplit` on a character list. -/
def urlsplitList (cs : List Char) : URLParts :=
  match splitScheme cs with
  | some (s, r) => urlsplitNoScheme s r
  | none => urlsplitNoScheme [] cs

/-- The string rebuilt by `normalize_url` before the trailing-slash
check: `f"{parsed.scheme}://{parsed.netloc}{parsed.path}"` plus
`f"?{parsed.query}"` when the query is nonempty. -/
def rebuild (p : URLParts) : List Char :=
  p.scheme ++ [':', '/', '/'] ++ p.netloc ++ p.path ++
    (if p.query.isEmpty then [] else '?' :: p.query)

/-- A URL rendered from components in the right-nested form used by the
round-trip lemmas: `scheme://netloc path ?query`. -/
def renderURL (S N P Q : List Char) : List Char :=
  S ++ ':' :: '/' :: '/' :: (N ++ P ++ (if Q.isEmpty then [] else '?' :: Q))

/-- The trailing-slash rule of `normalize_url`: drop the last character
of the rebuilt URL when it is a slash and the parsed path is longer than
one character (`if normalized.endswith('/') and len(parsed.path) > 1`). -/
def stripSlash (p : URLParts) : List Char :=
  if (rebuild p).getLast? = some '/' ∧ p.path.length > 1 then
    (rebuild p).dropLast
  else rebuild p

/-- `stripSlash` applied after the pure splitting steps: the value
`normalize_url` computes on URLs that pass the netloc checks and take no
params split. -/
def normalizeCore (l : List Char) : List Char :=
  stripSlash (urlsplitList l)

/-- A C0 control character or space: the set `_WHATWG_C0_CONTROL_OR_SPACE`
left-stripped from the URL by `urlsplit`. -/
def isC0OrSpace (c : Char) : Bool :=
  decide (c.toNat ≤ 32)

/-- One of `_UNSAFE_URL_BYTES_TO_REMOVE` (tab, carriage return, line
feed), removed everywhere in the URL by `urlsplit`. -/
def isUnsafeURLByte (c : Char) : Bool :=
  c == '\t' || c == '\r' || c == '\n'

/-- The cleanup at the top of `urlsplit`: `url.lstrip(C0-or-space)`
followed by `url.replace(b, "")` for each unsafe byte (sequentially
removing every occurrence of each of the three characters, which equals
one filter). -/
def preprocess (l : List Char) : List Char :=
  (l.dropWhile isC0OrSpace).filter (fun c => !isUnsafeURLByte c)

/-- Classification returned by the `ipaddress.ip_address` oracle: an IPv4
address, an IPv6 address, or a `ValueError`. -/
inductive IpKind where
  | v4 : IpKind
  | v6 : IpKind
  | invalid : IpKind
deriving DecidableEq, Repr

/-- A hexadecimal digit, the class `[a-fA-F0-9]` of the IPvFuture regex. -/
def isHexDigitChar (c : Char) : Bool :=
  c.isDigit || (decide (97 ≤ c.toNat) && decide (c.toNat ≤ 102)) ||
    (decide (65 ≤ c.toNat) && decide (c.toNat ≤ 70))

/-- `_check_bracketed_host(hostname)` as a pass/raise predicate. A host
starting with `v` must match `\Av[a-fA-F0-9]+\..+\Z` (the `.` of the
regex cannot meet a line feed here, as those were removed, so `.+` is
nonemptiness); any other host must be an IPv6 address according to
`ipaddress.ip_address` — an IPv4 address in brackets or an unparsable
host raises. -/
def check_bracketed_host (ip : List Char → IpKind) (hostname : List Char) : Bool :=
  match hostname with
  | 'v' :: rest =>
      !(rest.takeWhile isHexDigitChar).isEmpty &&
        (match rest.dropWhile isHexDigitChar with
         | '.' :: t => !t.isEmpty
         | _ => false)
  | _ =>
      match ip hostname with
      | IpKind.v6 => true
      | _ => false

/-- `netloc.partition("[")[2].partition("]")[0]`: the text after the
first `[` up to the next `]` (or to the end when no `]` follows). -/
def bracketedHost (netloc : List Char) : List Char :=
  ((netloc.dropWhile (fun c => c != '[')).drop 1).takeWhile (fun c => c != ']')

/-- `_checknetloc(netloc)` as a pass/raise predicate: an empty or
all-ASCII netloc passes; otherwise the netloc minus every `@`, `:`, `#`,
`?` (four sequential `replace` calls, equal to one filter) is NFKC
normalized through the `nfkc` oracle, and the check raises when
normalization changed the text and the normal form contains one of
`/`, `?`, `#`, `@`, `:`. -/
def checknetloc (nfkc : List Char → List Char) (netloc : List Char) : Bool :=
  if netloc = [] ∨ ∀ c ∈ netloc, c.toNat < 128 then true
  else
    if nfkc (netloc.filter (fun c => !(c == '@' || c == ':' || c == '#' || c == '?'))) =
        netloc.filter (fun c => !(c == '@' || c == ':' || c == '#' || c == '?')) then true
    else
      if '/' ∈ nfkc (netloc.filter (fun c => !(c == '@' || c == ':' || c == '#' || c == '?'))) ∨
         '?' ∈ nfkc (netloc.filter (fun c => !(c == '@' || c == ':' || c == '#' || c == '?'))) ∨
         '#' ∈ nfkc (netloc.filter (fun c => !(c == '@' || c == ':' || c == '#' || c == '?'))) ∨
         '@' ∈ nfkc (netloc.filter (fun c => !(c == '@' || c == ':' || c == '#' || c == '?'))) ∨
         ':' ∈ nfkc (netloc.filter (fun c => !(c == '@' || c == ':' || c == '#' || c == '?')))
      then false else true

/-- The three `ValueError` sites of `urlsplit`, in source order: the
unbalanced-bracket raise, then `_check_bracketed_host` when the netloc
has both brackets, then `_checknetloc`. All three inspect only the
netloc, so sequencing them after the pure splits preserves exactly when
and why `urlsplit` raises. -/
def urlsplitChecksOK (ip : List Char → IpKind) (nfkc : List Char → List Char)
    (netloc : List Char) : Bool :=
  if ('[' ∈ netloc ∧ ']' ∉ netloc) ∨ (']' ∈ netloc ∧ '[' ∉ netloc) then false
  else if '[' ∈ netloc ∧ ']' ∈ netloc then
    check_bracketed_host ip (bracketedHost netloc) && checknetloc nfkc netloc
  else checknetloc nfkc netloc

/-- CPython `urlsplit(url)` on a character list: WHATWG cleanup, pure
splits, netloc checks; `none` is a `ValueError`. -/
def urlsplit (ip : List Char → IpKind) (nfkc : List Char → List Char)
    (l : List Char) : Option URLParts :=
  if urlsplitChecksOK ip nfkc (urlsplitList (preprocess l)).netloc then
    some (urlsplitList (preprocess l))
  else none

/-- The `uses_params` scheme list of `urllib.parse` (CPython 3.11),
which contains the empty default scheme. -/
def uses_params : List (List Char) :=
  [[], "ftp".toList, "hdl".toList, "prospero".toList, "http".toList, "imap".toList,
   "https".toList, "shttp".toList, "rtsp".toList, "rtsps".toList, "rtspu".toList,
   "sip".toList, "sips".toList, "mms".toList, "sftp".toList, "tel".toList]

/-- Split a list at its last slash: `some (pre, seg)` with
`path = pre ++ slash :: seg` and no slash in `seg`; `none` when the list
has no slash. This locates `url.rfind("/")` of `_splitparams`. -/
def splitAtLastSlash : List Char → Option (List Char × List Char)
  | [] => none
  | c :: t =>
      match splitAtLastSlash t with
      | some (pre, seg) => some (c :: pre, seg)
      | none => if c = '/' then some ([], t) else none

/-- `_splitparams(url)`: with a slash present, cut at the first `;` at or
after the last slash, keeping the whole path when the last segment has
no `;`; with no slash, cut at the first `;`. The final branch reproduces
the slicing `url[:-1], url[0:]` that Python computes from `find = -1`
when a slash-free path has no `;` (unreachable from `urlparse`, which
only calls `_splitparams` when the path contains `;`). -/
def splitparams (path : List Char) : List Char × List Char :=
  match splitAtLastSlash path with
  | some (pre, seg) =>
      if ';' ∈ seg then
        (pre ++ '/' :: seg.takeWhile (fun c => c != ';'),
         (seg.dropWhile (fun c => c != ';')).drop 1)
      else (path, [])
  | none =>
      if ';' ∈ path then
        (path.takeWhile (fun c => c != ';'), (path.dropWhile (fun c => c != ';')).drop 1)
      else (path.dropLast, path)

/-- The result of `urlparse` (fields as character lists). -/
structure ParseResult where
  scheme : List Char
  netloc : List Char
  path : List Char
  params : List Char
  query : List Char
  fragment : List Char
deriving DecidableEq, Repr

/-- The params step of `urlparse` on a split result: when the scheme uses
params and the path contains a `;`, the path is cut by `_splitparams`;
otherwise the params are empty. -/
def urlparseParts (p : URLParts) : ParseResult :=
  if p.scheme ∈ uses_params ∧ ';' ∈ p.path then
    { scheme := p.scheme, netloc := p.netloc, path := (splitparams p.path).1,
      params := (splitparams p.path).2, query := p.query, fragment := p.fragment }
  else
    { scheme := p.scheme, netloc := p.netloc, path := p.path, params := [],
      query := p.query, fragment := p.fragment }

/-- CPython `urlparse(url)` on a character list: `urlsplit`, then the
params split. `none` is a `ValueError`. -/
def urlparse (ip : List Char → IpKind) (nfkc : List Char → List Char)
    (l : List Char) : Option ParseResult :=
  match urlsplit ip nfkc l with
  | some p => some (urlparseParts p)
  | none => none

/-- The five `urlsplit`-shaped fields of a parse result (`normalize_url`
reads `scheme`, `netloc`, `path` and `query` only, so the params are
dropped here and never rebuilt). -/
def parseParts (p : ParseResult) : URLParts :=
  { scheme := p.scheme, netloc := p.netloc, path := p.path, query := p.query,
    fragment := p.fragment }

/-- `validators.normalize_url`: `urlparse`, rebuild
`scheme://netloc path [?query]` without fragment and params, and strip
one trailing slash unless the parsed path has length at most 1. The
`ValueError` that `urlparse` can raise propagates (as `none`) — the
source catches nothing. -/
def normalize_url (ip : List Char → IpKind) (nfkc : List Char → List Char)
    (url : String) : Option String :=
  match urlparse ip nfkc url.toList with
  | some parsed => some (String.mk (stripSlash (parseParts parsed)))
  | none => none

/-- An `ip_address` oracle declaring every host unparsable; the sanity
examples below use it on bracket-free URLs, where it is never consulted. -/
def trivialIp : List Char → IpKind := fun _ => IpKind.invalid

/-- An NFKC oracle that fixes every string; the sanity examples below use
it on ASCII netlocs, where it is never consulted. -/
def trivialNfkc : List Char → List Char := fun l => l

/-- The trailing `k` characters of a string (the whole string when it is
shorter than `k`); the notion of trailing overlap used by the claims
about chunking. -/
def strTakeRight (s : String) (k : Nat) : String :=
  String.mk (s.toList.drop (s.toList.length - k))

/-- The relation between consecutive chunks asserted by the overlap
property: the trailing `co` characters of the earlier chunk begin the
later chunk. -/
def overlapRel (co : Nat) (a b : Chunk) : Prop :=
  (strTakeRight a.text co).toList.isPrefixOf b.text.toList = true

/-- A character list ending in two slashes (the shape on which one
trailing-slash strip exposes another slash). -/
def endsTwoSlash (l : List Char) : Prop :=
  l.getLast? = some '/' ∧ l.dropLast.getLast? = some '/'

instance endsTwoSlash_decidable (l : List Char) : Decidable (endsTwoSlash l) :=
  inferInstanceAs (Decidable (l.getLast? = some '/' ∧ l.dropLast.getLast? = some '/'))

/-! ## Sanity evaluation of the embedding on concrete inputs, each
cross-checked against the behavior of the corresponding Python code. -/

example : split_sentences "Hi. Yo. Hey." = ["Hi.", "Yo.", "Hey."] := by decide
example :
    (chunk_text 4 2 "Hi. Yo. Hey." none).map (fun c => c.text) =
      ["Hi.", "i. Yo.", "o. Hey."] := by decide
example : normalize_url trivialIp trivialNfkc "https://a.com/" =
    some "https://a.com/" := by decide
example : normalize_url trivialIp trivialNfkc "https://a.com" =
    some "https://a.com" := by decide
example : normalize_url trivialIp trivialNfkc "https://a.com/p/" =
    some "https://a.com/p" := by decide
example : normalize_url trivialIp trivialNfkc "https://a.com/p#frag" =
    some "https://a.com/p" := by decide
example : normalize_url trivialIp trivialNfkc "https://a.com/p//" =
    some "https://a.com/p/" := by decide
example : normalize_url trivialIp trivialNfkc "https://a.com/p?q=1/" =
    some "https://a.com/p?q=1" := by decide
example : normalize_url trivialIp trivialNfkc "HTTPS://a.com/p" =
    some "https://a.com/p" := by decide
example : normalize_url trivialIp trivialNfkc "//a.com/p/x/" =
    some "://a.com/p/x" := by decide
example : normalize_url trivialIp trivialNfkc "a:b/c/" = some "a://b/c" := by decide
example : normalize_url trivialIp trivialNfkc "https://a.com/p?q=//" =
    some "https://a.com/p?q=/" := by decide
example : normalize_url trivialIp trivialNfkc "https://a.com/p;/" =
    some "https://a.com/p;" := by decide
example : normalize_url trivialIp trivialNfkc "https://a.com/p;" =
    some "https://a.com/p" := by decide
example : normalize_url trivialIp trivialNfkc "https://a.com/x;y/z" =
    some "https://a.com/x;y/z" := by decide
example : normalize_url trivialIp trivialNfkc "ftp://h/a;b" = some "ftp://h/a" := by decide
example : normalize_url trivialIp trivialNfkc "a://b/x;y" = some "a://b/x;y" := by decide
example : normalize_url trivialIp trivialNfkc "https://n/;" = some "https://n/" := by decide
example : normalize_url trivialIp trivialNfkc " https://a.com/p/" =
    some "https://a.com/p" := by decide
example : normalize_url trivialIp trivialNfkc "https://a/b\tc/" =
    some "https://a/bc" := by decide
example : normalize_url trivialIp trivialNfkc "https://[::1]/p/" = none := by decide
example : normalize_url (fun _ => IpKind.v6) trivialNfkc "https://[::1]/p/" =
    some "https://[::1]/p" := by decide
example : normalize_url trivialIp trivialNfkc "https://[a/x/" = none := by decide
example : split_sentences "  A!  B?C. D.  " = ["A!", "B?C.", "D."] := by decide
example :
    (chunk_text 20 5 "One two three. Four five six. Seven eight. Nine." none).map
      (fun c => c.text) =
      ["One two three.", "hree. Four five six.", " six. Seven eight.", "ight. Nine."] := by
  decide

example : is_menu_pdf "menu with price" = false := by decide
example : is_menu_pdf "Menu Price Dessert" = true := by decide
example : menuKeywordMatches "speisekarte" = 1 := by decide
example : detect_data_type "show me the menu and hours" "" = "menu" := by decide
example : detect_data_type "is it open" "menu menu menu" = "business_hours" := by decide

/-! ## Character-level facts used by the URL round-trip proofs -/

/-- The order on `UInt32` is definitionally the order on `toNat`. -/
theorem uint32_le_iff (a b : UInt32) : a ≤ b ↔ a.toNat ≤ b.toNat :=
  ⟨fun h => h, fun h => h⟩

/-- `Char.ofNat` round-trips on the code points produced by lowercasing
ASCII and Latin-1 letters. -/
theorem char_ofNat_toNat_small : ∀ n, n < 255 → 97 ≤ n → (Char.ofNat n).toNat = n := by
  decide

/-- Characters with equal code points are equal. -/
theorem char_eq_of_toNat {c d : Char} (h : c.toNat = d.toNat) : c = d :=
  Char.eq_of_val_eq (UInt32.ext h)

/-- `Char.isAlpha` in terms of code points. -/
theorem isAlpha_toNat (c : Char) :
    c.isAlpha = true ↔ (65 ≤ c.toNat ∧ c.toNat ≤ 90) ∨ (97 ≤ c.toNat ∧ c.toNat ≤ 122) := by
  simp [Char.isAlpha, Char.isUpper, Char.isLower, uint32_le_iff]
  rfl

/-- `Char.isDigit` in terms of code points. -/
theorem isDigit_toNat (c : Char) :
    c.isDigit = true ↔ 48 ≤ c.toNat ∧ c.toNat ≤ 57 := by
  simp [Char.isDigit, uint32_le_iff]
  rfl

/-- `isSchemeChar` in terms of code points. -/
theorem isSchemeChar_toNat (c : Char) :
    isSchemeChar c = true ↔
      (65 ≤ c.toNat ∧ c.toNat ≤ 90) ∨ (97 ≤ c.toNat ∧ c.toNat ≤ 122) ∨
      (48 ≤ c.toNat ∧ c.toNat ≤ 57) ∨ c.toNat = 43 ∨ c.toNat = 45 ∨ c.toNat = 46 := by
  have h43 : c = '+' ↔ c.toNat = 43 :=
    ⟨fun h => by subst h; rfl, fun h => char_eq_of_toNat h⟩
  have h45 : c = '-' ↔ c.toNat = 45 :=
    ⟨fun h => by subst h; rfl, fun h => char_eq_of_toNat h⟩
  have h46 : c = '.' ↔ c.toNat = 46 :=
    ⟨fun h => by subst h; rfl, fun h => char_eq_of_toNat h⟩
  simp [isSchemeChar, isAlpha_toNat, isDigit_toNat, h43, h45, h46, or_assoc]

/-- Lowercasing an ASCII uppercase letter adds 32 to the code point. -/
theorem pyCharLower_toNat_of_upper (c : Char) (h1 : 65 ≤ c.toNat) (h2 : c.toNat ≤ 90) :
    (pyCharLower c).toNat = c.toNat + 32 := by
  unfold pyCharLower
  rw [if_pos ⟨h1, h2⟩]
  exact char_ofNat_toNat_small _ (by omega) (by omega)

/-- Characters outside both uppercase ranges are fixed by `pyCharLower`. -/
theorem pyCharLower_eq_self (c : Char)
    (h1 : ¬ (65 ≤ c.toNat ∧ c.toNat ≤ 90))
    (h2 : ¬ (192 ≤ c.toNat ∧ c.toNat ≤ 222 ∧ c.toNat ≠ 215)) : pyCharLower c = c := by
  unfold pyCharLower
  rw [if_neg h1, if_neg h2]

/-- Lowercasing a scheme character yields a scheme character, is
idempotent there, and never produces `:` (code 58) or `#` (code 35). -/
theorem schemeChar_pyCharLower (c : Char) (h : isSchemeChar c = true) :
    isSchemeChar (pyCharLower c) = true ∧
    pyCharLower (pyCharLower c) = pyCharLower c ∧
    (pyCharLower c).toNat ≠ 58 ∧ (pyCharLower c).toNat ≠ 35 := by
  rw [isSchemeChar_toNat] at h
  by_cases hu : 65 ≤ c.toNat ∧ c.toNat ≤ 90
  · have ht := pyCharLower_toNat_of_upper c hu.1 hu.2
    refine ⟨?_, ?_, by omega, by omega⟩
    · rw [isSchemeChar_toNat]
      omega
    · apply pyCharLower_eq_self <;> omega
  · have he : pyCharLower c = c := by
      apply pyCharLower_eq_self c hu
      omega
    rw [he]
    exact ⟨by rw [isSchemeChar_toNat]; omega, he, by omega, by omega⟩

/-- Lowercasing preserves `isAlpha`. -/
theorem alpha_pyCharLower (c : Char) (h : c.isAlpha = true) :
    (pyCharLower c).isAlpha = true := by
  rw [isAlpha_toNat] at h
  by_cases hu : 65 ≤ c.toNat ∧ c.toNat ≤ 90
  · have ht := pyCharLower_toNat_of_upper c hu.1 hu.2
    rw [isAlpha_toNat]
    omega
  · have he : pyCharLower c = c := by
      apply pyCharLower_eq_self c hu
      omega
    rw [he, isAlpha_toNat]
    omega

/-- An alphabetic character is a scheme character. -/
theorem isSchemeChar_of_alpha (c : Char) (h : c.isAlpha = true) :
    isSchemeChar c = true := by
  simp [isSchemeChar, h]

/-! ## Generic list facts used by the URL round-trip proofs -/

/-- `takeWhile` walks through a block that satisfies the predicate. -/
theorem takeWhile_append_all {p : Char → Bool} {l₁ : List Char} (l₂ : List Char)
    (h : ∀ a ∈ l₁, p a = true) :
    (l₁ ++ l₂).takeWhile p = l₁ ++ l₂.takeWhile p := by
  induction l₁ with
  | nil => simp
  | cons a t ih =>
      have ha := h a (by simp)
      simp only [List.cons_append, List.takeWhile_cons, ha]
      rw [ih (fun b hb => h b (by simp [hb]))]
      simp

/-- `dropWhile` drops a leading block that satisfies the predicate. -/
theorem dropWhile_append_all {p : Char → Bool} {l₁ : List Char} (l₂ : List Char)
    (h : ∀ a ∈ l₁, p a = true) :
    (l₁ ++ l₂).dropWhile p = l₂.dropWhile p := by
  induction l₁ with
  | nil => simp
  | cons a t ih =>
      have ha := h a (by simp)
      simp only [List.cons_append, List.dropWhile_cons, ha]
      exact ih (fun b hb => h b (by simp [hb]))

/-- `takeWhile` keeps a list all of whose elements satisfy the predicate. -/
theorem takeWhile_all {p : Char → Bool} {l : List Char}
    (h : ∀ a ∈ l, p a = true) : l.takeWhile p = l := by
  have := @takeWhile_append_all p l [] h
  simpa using this

/-- `dropWhile` empties a list all of whose elements satisfy the predicate. -/
theorem dropWhile_all {p : Char → Bool} {l : List Char}
    (h : ∀ a ∈ l, p a = true) : l.dropWhile p = [] := by
  have := @dropWhile_append_all p l [] h
  simpa using this

/-- The head of a nonempty `dropWhile` result fails the predicate. -/
theorem dropWhile_head_false {p : Char → Bool} {l : List Char} {a : Char} {t : List Char}
    (h : l.dropWhile p = a :: t) : p a = false := by
  induction l with
  | nil => simp at h
  | cons b l2 ih =>
      by_cases hb : p b
      · rw [List.dropWhile_cons_of_pos hb] at h
        exact ih h
      · rw [List.dropWhile_cons_of_neg hb] at h
        cases h
        exact Bool.not_eq_true _ ▸ by simpa using hb

/-- `splitAtFirst` on a list that avoids the delimiter. -/
theorem splitAtFirst_of_not_mem {d : Char} {l : List Char} (h : ∀ c ∈ l, c ≠ d) :
    splitAtFirst d l = (l, []) := by
  unfold splitAtFirst
  have h1 : ∀ c ∈ l, (c != d) = true := fun c hc => by simpa using h c hc
  rw [takeWhile_all h1, dropWhile_all h1]
  rfl

/-- `splitAtFirst` around the first occurrence of the delimiter. -/
theorem splitAtFirst_append {d : Char} {A : List Char} (B : List Char)
    (h : ∀ c ∈ A, c ≠ d) :
    splitAtFirst d (A ++ d :: B) = (A, B) := by
  unfold splitAtFirst
  have h1 : ∀ c ∈ A, (c != d) = true := fun c hc => by simpa using h c hc
  rw [takeWhile_append_all _ h1, dropWhile_append_all _ h1]
  simp

/-! ## Facts about `splitScheme` -/

/-- A successful scheme split produces the lowercased form of a valid
scheme: an alphabetic head followed by scheme characters. -/
theorem splitScheme_some {cs S rest : List Char} (h : splitScheme cs = some (S, rest)) :
    ∃ (c0 : Char) (pre : List Char),
      S = pyCharLower c0 :: pre.map pyCharLower ∧ c0.isAlpha = true ∧
      ∀ c ∈ pre, isSchemeChar c = true := by
  unfold splitScheme at h
  cases hd : cs.dropWhile (fun c => c != ':') with
  | nil =>
      rw [hd] at h
      simp at h
  | cons x rest2 =>
      rw [hd] at h
      cases hp : cs.takeWhile (fun c => c != ':') with
      | nil =>
          rw [hp] at h
          simp at h
      | cons c0 restPre =>
          rw [hp] at h
          dsimp only at h
          by_cases hc : c0.isAlpha && restPre.all isSchemeChar
          · rw [if_pos hc] at h
            simp only [Option.some.injEq, Prod.mk.injEq] at h
            obtain ⟨hS, -⟩ := h
            simp only [Bool.and_eq_true] at hc
            refine ⟨c0, restPre, ?_, hc.1, ?_⟩
            · rw [← hS]
              rfl
            · intro c hcmem
              exact List.all_eq_true.mp hc.2 c hcmem
          · rw [if_neg hc] at h
            simp at h


/-- Every character of a parsed scheme is a scheme character, is fixed
by lowercasing, and is neither `:` nor `#`. -/
theorem splitScheme_chars {cs S rest : List Char} (h : splitScheme cs = some (S, rest)) :
    ∀ c ∈ S, isSchemeChar c = true ∧ pyCharLower c = c ∧ c.toNat ≠ 58 ∧ c.toNat ≠ 35 := by
  obtain ⟨c0, pre, hS, hal, hpre⟩ := splitScheme_some h
  intro c hc
  rw [hS] at hc
  rcases List.mem_cons.mp hc with h0 | hm
  · subst h0
    exact schemeChar_pyCharLower c0 (isSchemeChar_of_alpha c0 hal)
  · obtain ⟨d, hd, rfl⟩ := List.mem_map.mp hm
    exact schemeChar_pyCharLower d (hpre d hd)

/-- A parsed scheme splits off again from any remainder. -/
theorem splitScheme_roundtrip {cs S rest : List Char}
    (h : splitScheme cs = some (S, rest)) (r : List Char) :
    splitScheme (S ++ ':' :: r) = some (S, r) := by
  obtain ⟨c0, pre, hS, hal, hpre⟩ := splitScheme_some h
  have hfacts := splitScheme_chars h
  have hne : ∀ c ∈ S, (c != ':') = true := by
    intro c hc
    have h58 := (hfacts c hc).2.2.1
    simp only [bne_iff_ne, ne_eq]
    intro heq
    exact h58 (by rw [heq]; rfl)
  have hmapself : S.map pyCharLower = S := by
    have : ∀ c ∈ S, pyCharLower c = c := fun c hc => (hfacts c hc).2.1
    calc S.map pyCharLower = S.map id := List.map_congr_left this
    _ = S := List.map_id S
  unfold splitScheme
  rw [takeWhile_append_all (':' :: r) hne, dropWhile_append_all (':' :: r) hne]
  rw [List.takeWhile_cons_of_neg (by simp), List.dropWhile_cons_of_neg (by simp)]
  rw [List.append_nil]
  rw [hS]
  dsimp only
  have hhead : (pyCharLower c0).isAlpha = true := alpha_pyCharLower c0 hal
  have htail : (pre.map pyCharLower).all isSchemeChar = true := by
    rw [List.all_eq_true]
    intro c hc
    obtain ⟨d, hd, rfl⟩ := List.mem_map.mp hc
    exact (schemeChar_pyCharLower d (hpre d hd)).1
  rw [if_pos (by rw [hhead, htail]; rfl)]
  rw [show (pyCharLower c0 :: pre.map pyCharLower).map pyCharLower =
      (pyCharLower c0 :: pre.map pyCharLower) from by rw [← hS]; exact hmapself]

/-! ## Structural facts about `urlsplit` output -/

/-- Fields of the final `urlsplit` stage when the remainder is a
delimiter-free path part followed by an optional `?query`. -/
theorem urlsplitAfterNetloc_render (scheme netloc P2 Q : List Char)
    (hP2q : ∀ c ∈ P2, c ≠ '?') (hP2h : ∀ c ∈ P2, c ≠ '#') (hQh : ∀ c ∈ Q, c ≠ '#') :
    urlsplitAfterNetloc scheme netloc (P2 ++ (if Q.isEmpty then [] else '?' :: Q)) =
      { scheme := scheme, netloc := netloc, path := P2, query := Q, fragment := [] } := by
  unfold urlsplitAfterNetloc
  cases Q with
  | nil =>
      simp only [List.isEmpty_nil, if_pos, List.append_nil]
      rw [splitAtFirst_of_not_mem hP2h, splitAtFirst_of_not_mem hP2q]
  | cons q Q2 =>
      rw [show ((q :: Q2).isEmpty) = false from rfl, if_neg (by decide)]
      have hall : ∀ c ∈ P2 ++ '?' :: q :: Q2, c ≠ '#' := by
        intro c hc
        rcases List.mem_append.mp hc with h1 | h2
        · exact hP2h c h1
        · rcases List.mem_cons.mp h2 with h3 | h4
          · subst h3
            decide
          · exact hQh c h4
      rw [splitAtFirst_of_not_mem hall, splitAtFirst_append (q :: Q2) hP2q]

/-- Character-level facts about the path and query of the final
`urlsplit` stage, and the relation of the path head to the remainder. -/
theorem urlsplitAfterNetloc_facts (scheme netloc rest2 : List Char) :
    (∀ c ∈ (urlsplitAfterNetloc scheme netloc rest2).path, c ≠ '?' ∧ c ≠ '#') ∧
    (∀ c ∈ (urlsplitAfterNetloc scheme netloc rest2).query, c ≠ '#') ∧
    ((urlsplitAfterNetloc scheme netloc rest2).path = [] ∨
      (urlsplitAfterNetloc scheme netloc rest2).path.head? = rest2.head?) := by
  unfold urlsplitAfterNetloc
  unfold splitAtFirst
  refine ⟨?_, ?_, ?_⟩
  · intro c hc
    simp only at hc
    constructor
    · have := List.mem_takeWhile_imp hc
      simpa using this
    · have hc2 : c ∈ rest2.takeWhile (fun c => c != '#') :=
        (List.takeWhile_sublist _).subset hc
      have := List.mem_takeWhile_imp hc2
      simpa using this
  · intro c hc
    simp only at hc
    have hc2 : c ∈ (rest2.takeWhile (fun c => c != '#')).dropWhile (fun c => c != '?') :=
      (List.drop_sublist 1 _).subset hc
    have hc3 : c ∈ rest2.takeWhile (fun c => c != '#') :=
      (List.dropWhile_sublist _).subset hc2
    have := List.mem_takeWhile_imp hc3
    simpa using this
  · simp only
    cases hp : (rest2.takeWhile (fun c => c != '#')).takeWhile (fun c => c != '?') with
    | nil => exact Or.inl rfl
    | cons a t =>
        right
        have h1 : (rest2.takeWhile (fun c => c != '#')).head? = some a := by
          cases h2 : rest2.takeWhile (fun c => c != '#') with
          | nil => rw [h2] at hp; simp at hp
          | cons b u =>
              rw [h2, List.takeWhile_cons] at hp
              by_cases hb : (b != '?') = true
              · rw [if_pos hb] at hp
                cases hp
                rfl
              · rw [if_neg hb] at hp
                simp at hp
        cases h3 : rest2 with
        | nil => rw [h3] at h1; simp at h1
        | cons d v =>
            rw [h3, List.takeWhile_cons] at h1
            by_cases hd : (d != '#') = true
            · rw [if_pos hd] at h1
              simp only [List.head?_cons, Option.some.injEq] at h1
              simp [hp, h1]
            · rw [if_neg hd] at h1
              simp at h1

/-- When every nonempty remainder starts with a netloc delimiter, the
parsed path is empty or starts with a slash. -/
theorem urlsplitAfterNetloc_shape (scheme netloc rest2 : List Char)
    (hner : ∀ a t, rest2 = a :: t → isNetlocEnd a = true) :
    (urlsplitAfterNetloc scheme netloc rest2).path = [] ∨
    (urlsplitAfterNetloc scheme netloc rest2).path.head? = some '/' := by
  obtain ⟨hp, hq, hshape⟩ := urlsplitAfterNetloc_facts scheme netloc rest2
  rcases hshape with h | h
  · exact Or.inl h
  · cases hrest : rest2 with
    | nil =>
        subst hrest
        left
        cases hpath : (urlsplitAfterNetloc scheme netloc []).path with
        | nil => rfl
        | cons b u =>
            rw [hpath] at h
            simp at h
    | cons a t =>
        have ha := hner a t hrest
        subst hrest
        simp only [List.head?_cons] at h
        by_cases hslash : a = '/'
        · right
          rw [h, hslash]
        · left
          cases hpath : (urlsplitAfterNetloc scheme netloc (a :: t)).path with
          | nil => rfl
          | cons b u =>
              exfalso
              rw [hpath] at h
              simp only [List.head?_cons, Option.some.injEq] at h
              have hb := hp b (by rw [hpath]; simp)
              have ha2 : isNetlocEnd b = true := by rw [h]; exact ha
              simp only [isNetlocEnd, Bool.or_eq_true, decide_eq_true_eq] at ha2
              rcases ha2 with (h1 | h1) | h1
              · exact hslash (by rw [← h]; exact h1)
              · exact hb.1 h1
              · exact hb.2 h1

/-- Full structural facts for `urlsplitList`: the netloc avoids its
delimiters, the path avoids `?` and `#`, the query avoids `#`, the
scheme avoids `#`, and either the path is empty, starts with `/`, or the
netloc is empty. -/
theorem urlsplitList_facts (cs : List Char) :
    (∀ c ∈ (urlsplitList cs).netloc, isNetlocEnd c = false) ∧
    (∀ c ∈ (urlsplitList cs).path, c ≠ '?' ∧ c ≠ '#') ∧
    (∀ c ∈ (urlsplitList cs).query, c ≠ '#') ∧
    (∀ c ∈ (urlsplitList cs).scheme, c ≠ '#') ∧
    ((urlsplitList cs).path = [] ∨ (urlsplitList cs).path.head? = some '/' ∨
      (urlsplitList cs).netloc = []) := by
  have main : ∀ (scheme rest1 : List Char),
      (∀ c ∈ scheme, c ≠ '#') →
      (∀ c ∈ (urlsplitNoScheme scheme rest1).netloc, isNetlocEnd c = false) ∧
      (∀ c ∈ (urlsplitNoScheme scheme rest1).path, c ≠ '?' ∧ c ≠ '#') ∧
      (∀ c ∈ (urlsplitNoScheme scheme rest1).query, c ≠ '#') ∧
      (∀ c ∈ (urlsplitNoScheme scheme rest1).scheme, c ≠ '#') ∧
      ((urlsplitNoScheme scheme rest1).path = [] ∨
        (urlsplitNoScheme scheme rest1).path.head? = some '/' ∨
        (urlsplitNoScheme scheme rest1).netloc = []) := by
    intro scheme rest1 hsch
    unfold urlsplitNoScheme
    by_cases h2 : rest1.take 2 = ['/', '/']
    · rw [if_pos h2]
      obtain ⟨hp, hq, -⟩ := urlsplitAfterNetloc_facts scheme
        ((rest1.drop 2).takeWhile (fun c => !isNetlocEnd c))
        ((rest1.drop 2).dropWhile (fun c => !isNetlocEnd c))
      refine ⟨?_, hp, hq, fun c hc => hsch c hc, ?_⟩
      · intro c hc
        have := List.mem_takeWhile_imp hc
        simpa using this
      · have hshape := urlsplitAfterNetloc_shape scheme
          ((rest1.drop 2).takeWhile (fun c => !isNetlocEnd c))
          ((rest1.drop 2).dropWhile (fun c => !isNetlocEnd c))
          (fun a t hd => by
            have := dropWhile_head_false hd
            simpa using this)
        rcases hshape with h | h
        · exact Or.inl h
        · exact Or.inr (Or.inl h)
    · rw [if_neg h2]
      obtain ⟨hp, hq, -⟩ := urlsplitAfterNetloc_facts scheme [] rest1
      refine ⟨?_, hp, hq, fun c hc => hsch c hc, Or.inr (Or.inr rfl)⟩
      intro c hc
      simp [urlsplitAfterNetloc] at hc
  unfold urlsplitList
  cases hs : splitScheme cs with
  | none =>
      exact main [] cs (by simp)
  | some pr =>
      cases pr with
      | mk S rest =>
          refine main S rest ?_
          intro c hc
          have h35 := (splitScheme_chars hs c hc).2.2.2
          intro heq
          exact h35 (by rw [heq]; rfl)

/-- Splitting a netloc block from a remainder whose head, if any, is a
netloc delimiter. -/
theorem split_netloc_T (N R : List Char)
    (hN : ∀ c ∈ N, (!isNetlocEnd c) = true)
    (hR : ∀ a t, R = a :: t → isNetlocEnd a = true) :
    (N ++ R).takeWhile (fun c => !isNetlocEnd c) = N ∧
    (N ++ R).dropWhile (fun c => !isNetlocEnd c) = R := by
  constructor
  · rw [takeWhile_append_all R hN]
    cases hr : R with
    | nil => simp
    | cons a t =>
        rw [List.takeWhile_cons_of_neg (by simp [hR a t hr]), List.append_nil]
  · rw [dropWhile_append_all R hN]
    cases hr : R with
    | nil => simp
    | cons a t =>
        rw [List.dropWhile_cons_of_neg (by simp [hR a t hr])]

/-- Reparsing a rendered URL `scheme://netloc path ?query` recovers the
scheme and query exactly, keeps `netloc ++ path` intact, produces no
fragment, and yields a path no longer than the rendered one. -/
theorem urlsplit_render (S N P Q : List Char)
    (hsch : ∀ r, splitScheme (S ++ ':' :: r) = some (S, r))
    (hN : ∀ c ∈ N, isNetlocEnd c = false)
    (hPq : ∀ c ∈ P, c ≠ '?') (hPh : ∀ c ∈ P, c ≠ '#') (hQh : ∀ c ∈ Q, c ≠ '#')
    (hshape : P = [] ∨ P.head? = some '/' ∨ N = [])
    (p : URLParts)
    (hp : p = urlsplitList (S ++ ':' :: '/' :: '/' ::
        (N ++ P ++ (if Q.isEmpty then [] else '?' :: Q)))) :
    p.scheme = S ∧ p.fragment = [] ∧ p.query = Q ∧
    p.netloc ++ p.path = N ++ P ∧ p.path.length ≤ P.length := by
  subst hp
  have hqpart : ∀ a t, (if Q.isEmpty then [] else '?' :: Q) = a :: t →
      isNetlocEnd a = true := by
    intro a t h
    cases Q with
    | nil => simp at h
    | cons q Q2 =>
        rw [show ((q :: Q2).isEmpty) = false from rfl, if_neg (by decide)] at h
        cases h
        rfl
  have hgN : ∀ c ∈ N, (!isNetlocEnd c) = true := by
    intro c hc
    rw [hN c hc]
    rfl
  unfold urlsplitList
  rw [hsch ('/' :: '/' :: (N ++ P ++ (if Q.isEmpty then [] else '?' :: Q)))]
  dsimp only
  unfold urlsplitNoScheme
  have htake : List.take 2 ('/' :: '/' :: (N ++ P ++ (if Q.isEmpty then [] else '?' :: Q))) =
      ['/', '/'] := rfl
  rw [if_pos htake]
  have hdrop : (('/' :: '/' :: (N ++ P ++ (if Q.isEmpty then [] else '?' :: Q)) :
      List Char)).drop 2 = N ++ P ++ (if Q.isEmpty then [] else '?' :: Q) := rfl
  rw [hdrop]
  rcases hshape with hPnil | hPslash | hNnil
  · -- empty path: the remainder after the netloc is just the query part
    subst hPnil
    obtain ⟨ht, hd⟩ := split_netloc_T N (if Q.isEmpty then [] else '?' :: Q) hgN hqpart
    simp only [List.append_nil] at htake ⊢
    rw [ht, hd]
    rw [show (if Q.isEmpty then [] else '?' :: Q) =
        [] ++ (if Q.isEmpty then [] else '?' :: Q) from rfl]
    rw [urlsplitAfterNetloc_render S N [] Q (by simp) (by simp) hQh]
    simp
  · -- path starting with a slash
    have hstop : ∀ a t, P ++ (if Q.isEmpty then [] else '?' :: Q) = a :: t →
        isNetlocEnd a = true := by
      intro a t h
      cases P with
      | nil => simp at hPslash
      | cons x P2 =>
          simp only [List.head?_cons, Option.some.injEq] at hPslash
          rw [List.cons_append] at h
          cases h
          rw [hPslash]
          rfl
    rw [List.append_assoc]
    obtain ⟨ht, hd⟩ := split_netloc_T N (P ++ (if Q.isEmpty then [] else '?' :: Q)) hgN hstop
    rw [ht, hd]
    rw [urlsplitAfterNetloc_render S N P Q hPq hPh hQh]
    simp
  · -- empty netloc: the path block is split at its first slash
    subst hNnil
    rw [List.nil_append]
    have hPsplit : P.takeWhile (fun c => !isNetlocEnd c) ++
        P.dropWhile (fun c => !isNetlocEnd c) = P :=
      List.takeWhile_append_dropWhile _ _
    have hA : ∀ c ∈ P.takeWhile (fun c => !isNetlocEnd c), (!isNetlocEnd c) = true := by
      intro c hc
      have h2 := List.mem_takeWhile_imp hc
      simpa using h2
    have hstop : ∀ a t,
        P.dropWhile (fun c => !isNetlocEnd c) ++ (if Q.isEmpty then [] else '?' :: Q) =
          a :: t → isNetlocEnd a = true := by
      intro a t h
      cases hB : P.dropWhile (fun c => !isNetlocEnd c) with
      | nil =>
          rw [hB, List.nil_append] at h
          exact hqpart a t h
      | cons b B2 =>
          rw [hB, List.cons_append] at h
          cases h
          have := dropWhile_head_false hB
          simpa using this
    have hT : P ++ (if Q.isEmpty then [] else '?' :: Q) =
        P.takeWhile (fun c => !isNetlocEnd c) ++
          (P.dropWhile (fun c => !isNetlocEnd c) ++ (if Q.isEmpty then [] else '?' :: Q)) := by
      rw [← List.append_assoc, hPsplit]
    rw [hT]
    obtain ⟨ht, hd⟩ := split_netloc_T (P.takeWhile (fun c => !isNetlocEnd c))
      (P.dropWhile (fun c => !isNetlocEnd c) ++ (if Q.isEmpty then [] else '?' :: Q))
      hA hstop
    rw [ht, hd]
    have hBmem : ∀ c ∈ P.dropWhile (fun c => !isNetlocEnd c), c ∈ P :=
      fun c hc => (List.dropWhile_sublist _).subset hc
    rw [urlsplitAfterNetloc_render S (P.takeWhile (fun c => !isNetlocEnd c))
      (P.dropWhile (fun c => !isNetlocEnd c)) Q
      (fun c hc => hPq c (hBmem c hc)) (fun c hc => hPh c (hBmem c hc)) hQh]
    refine ⟨rfl, rfl, rfl, ?_, ?_⟩
    · exact hPsplit
    · exact List.Sublist.length_le (List.dropWhile_sublist _)

/-- The character list of a rebuilt string. -/
theorem strToList_mk (l : List Char) : (String.mk l).toList = l := rfl

/-- When the rendered path starts with a slash, reparsing the rendered
URL recovers every component exactly. -/
theorem urlsplit_render_exact (S N P Q : List Char)
    (hsch : ∀ r, splitScheme (S ++ ':' :: r) = some (S, r))
    (hN : ∀ c ∈ N, isNetlocEnd c = false)
    (hPq : ∀ c ∈ P, c ≠ '?') (hPh : ∀ c ∈ P, c ≠ '#') (hQh : ∀ c ∈ Q, c ≠ '#')
    (hhead : P.head? = some '/') :
    urlsplitList (S ++ ':' :: '/' :: '/' ::
        (N ++ P ++ (if Q.isEmpty then [] else '?' :: Q))) =
      { scheme := S, netloc := N, path := P, query := Q, fragment := [] } := by
  have hgN : ∀ c ∈ N, (!isNetlocEnd c) = true := by
    intro c hc
    rw [hN c hc]
    rfl
  have hstop : ∀ a t, P ++ (if Q.isEmpty then [] else '?' :: Q) = a :: t →
      isNetlocEnd a = true := by
    intro a t h
    cases P with
    | nil => simp at hhead
    | cons x P2 =>
        simp only [List.head?_cons, Option.some.injEq] at hhead
        rw [List.cons_append] at h
        cases h
        rw [hhead]
        rfl
  unfold urlsplitList
  rw [hsch ('/' :: '/' :: (N ++ P ++ (if Q.isEmpty then [] else '?' :: Q)))]
  dsimp only
  unfold urlsplitNoScheme
  have htake : List.take 2 ('/' :: '/' :: (N ++ P ++ (if Q.isEmpty then [] else '?' :: Q))) =
      ['/', '/'] := rfl
  rw [if_pos htake]
  have hdrop : (('/' :: '/' :: (N ++ P ++ (if Q.isEmpty then [] else '?' :: Q)) :
      List Char)).drop 2 = N ++ P ++ (if Q.isEmpty then [] else '?' :: Q) := rfl
  rw [hdrop, List.append_assoc]
  obtain ⟨ht, hd⟩ := split_netloc_T N (P ++ (if Q.isEmpty then [] else '?' :: Q)) hgN hstop
  rw [ht, hd]
  rw [urlsplitAfterNetloc_render S N P Q hPq hPh hQh]

/-- The scheme field just passes through the later `urlsplit` stages. -/
theorem urlsplitNoScheme_scheme (s r : List Char) : (urlsplitNoScheme s r).scheme = s := by
  unfold urlsplitNoScheme urlsplitAfterNetloc
  split <;> rfl

/-- `rebuild` in the right-nested form used by the round-trip lemma. -/
theorem rebuild_assoc (p : URLParts) :
    rebuild p = p.scheme ++ ':' :: '/' :: '/' ::
      (p.netloc ++ p.path ++ (if p.query.isEmpty then [] else '?' :: p.query)) := by
  unfold rebuild
  simp [List.append_assoc]

/-- A parsed URL with a nonempty scheme arose from a successful scheme
split, so its scheme splits off again from any remainder. -/
theorem scheme_roundtrip_of_ne_nil (cs : List Char)
    (h : (urlsplitList cs).scheme ≠ []) (r : List Char) :
    splitScheme ((urlsplitList cs).scheme ++ ':' :: r) =
      some ((urlsplitList cs).scheme, r) := by
  cases hs : splitScheme cs with
  | none =>
      exfalso
      apply h
      unfold urlsplitList
      rw [hs]
      exact urlsplitNoScheme_scheme [] cs
  | some pr =>
      cases pr with
      | mk S rest =>
          have hfield : (urlsplitList cs).scheme = S := by
            unfold urlsplitList
            rw [hs]
            exact urlsplitNoScheme_scheme S rest
          rw [hfield]
          exact splitScheme_roundtrip hs r

/-- The hash character does not occur in the rebuilt form of any parse
result. -/
theorem hash_not_in_rebuild (cs : List Char) : '#' ∉ rebuild (urlsplitList cs) := by
  obtain ⟨hN, hP, hQ, hS, -⟩ := urlsplitList_facts cs
  intro hmem
  unfold rebuild at hmem
  simp only [List.mem_append] at hmem
  rcases hmem with ((((h | h) | h) | h) | h)
  · exact hS _ h rfl
  · simp at h
  · have h2 := hN _ h
    simp [isNetlocEnd] at h2
  · exact (hP _ h).2 rfl
  · by_cases hq : (urlsplitList cs).query.isEmpty
    · rw [if_pos hq] at h
      simp at h
    · rw [if_neg hq] at h
      rcases List.mem_cons.mp h with h2 | h2
      · cases h2
      · exact hQ _ h2 rfl

/-- Last character of a rendered URL with empty query and nonempty path. -/
theorem renderURL_getLast_q0 (S N P : List Char) (hP : P ≠ []) :
    (renderURL S N P []).getLast? = P.getLast? := by
  unfold renderURL
  have hNP : N ++ P ≠ [] := by
    intro hc
    rcases List.append_eq_nil.mp hc with ⟨-, h⟩
    exact hP h
  rw [List.getLast?_append_of_ne_nil _ (by simp)]
  rw [show (':' :: '/' :: '/' :: (N ++ P ++ (if ([] : List Char).isEmpty then []
      else '?' :: [])) : List Char) = [':', '/', '/'] ++ (N ++ P) from by simp]
  rw [List.getLast?_append_of_ne_nil _ hNP, List.getLast?_append_of_ne_nil _ hP]

/-- Last character of a rendered URL with a nonempty query. -/
theorem renderURL_getLast_q (S N P Q : List Char) (hQ : Q ≠ []) :
    (renderURL S N P Q).getLast? = Q.getLast? := by
  unfold renderURL
  have hqp : (if Q.isEmpty then [] else '?' :: Q) = '?' :: Q := by
    cases Q with
    | nil => exact absurd rfl hQ
    | cons q t => rfl
  rw [hqp]
  rw [List.getLast?_append_of_ne_nil _ (by simp)]
  rw [show (':' :: '/' :: '/' :: (N ++ P ++ '?' :: Q) : List Char) =
      ([':', '/', '/'] ++ (N ++ P) ++ ['?']) ++ Q from by simp]
  rw [List.getLast?_append_of_ne_nil _ hQ]

/-- Stripping the final character of a rendered URL with empty query and
nonempty path strips it from the path. -/
theorem renderURL_dropLast_q0 (S N P : List Char) (hP : P ≠ []) :
    (renderURL S N P []).dropLast = renderURL S N P.dropLast [] := by
  unfold renderURL
  have hqp : (if ([] : List Char).isEmpty then [] else '?' :: ([] : List Char)) = [] := rfl
  rw [hqp]
  simp only [List.append_nil]
  have hNP : N ++ P ≠ [] := by
    intro hc
    rcases List.append_eq_nil.mp hc with ⟨-, h⟩
    exact hP h
  rw [List.dropLast_append_of_ne_nil _ (by simp)]
  rw [show (':' :: '/' :: '/' :: (N ++ P) : List Char) =
      [':', '/', '/'] ++ (N ++ P) from by simp]
  rw [List.dropLast_append_of_ne_nil _ hNP, List.dropLast_append_of_ne_nil _ hP]
  simp

/-- Stripping the final character of a rendered URL whose query keeps at
least one character strips it from the query. -/
theorem renderURL_dropLast_q (S N P Q : List Char) (hQd : Q.dropLast ≠ []) :
    (renderURL S N P Q).dropLast = renderURL S N P Q.dropLast := by
  have hQ : Q ≠ [] := by
    intro hc
    rw [hc] at hQd
    exact hQd rfl
  unfold renderURL
  have hqp : (if Q.isEmpty then [] else '?' :: Q) = '?' :: Q := by
    cases Q with
    | nil => exact absurd rfl hQ
    | cons q t => rfl
  have hqp2 : (if Q.dropLast.isEmpty then [] else '?' :: Q.dropLast) = '?' :: Q.dropLast := by
    cases hqq : Q.dropLast with
    | nil => exact absurd hqq hQd
    | cons q t => rfl
  rw [hqp, hqp2]
  rw [List.dropLast_append_of_ne_nil _ (by simp)]
  rw [show (':' :: '/' :: '/' :: (N ++ P ++ '?' :: Q) : List Char) =
      ([':', '/', '/'] ++ (N ++ P) ++ ['?']) ++ Q from by simp]
  rw [List.dropLast_append_of_ne_nil _ hQ]
  simp

/-- Dropping the last element of a list with more than one element keeps
its head. -/
theorem dropLast_head_of_long (P : List Char) (h : 1 < P.length) :
    P.dropLast.head? = P.head? := by
  cases P with
  | nil => simp at h
  | cons a t =>
      cases t with
      | nil => simp at h
      | cons b t2 => rfl

/-- A nonempty list whose last element is a slash and whose `dropLast`
is empty is exactly the singleton slash. -/
theorem eq_single_slash (Q : List Char) (hne : Q ≠ []) (hd : Q.dropLast = [])
    (hl : Q.getLast? = some '/') : Q = ['/'] := by
  cases Q with
  | nil => exact absurd rfl hne
  | cons a t =>
      cases t with
      | nil =>
          simp only [List.getLast?_singleton, Option.some.injEq] at hl
          rw [hl]
      | cons b t2 => simp at hd

/-- A rendered URL on which the strip rule does not fire is a fixed
point of `normalizeCore`. -/
theorem normalizeCore_fixed (S N P Q : List Char)
    (hsch : ∀ r, splitScheme (S ++ ':' :: r) = some (S, r))
    (hN : ∀ c ∈ N, isNetlocEnd c = false)
    (hPq : ∀ c ∈ P, c ≠ '?') (hPh : ∀ c ∈ P, c ≠ '#') (hQh : ∀ c ∈ Q, c ≠ '#')
    (hshape : P = [] ∨ P.head? = some '/' ∨ N = [])
    (hnostrip : (renderURL S N P Q).getLast? ≠ some '/' ∨ P.length ≤ 1) :
    normalizeCore (renderURL S N P Q) = renderURL S N P Q := by
  obtain ⟨hsc1, hfr1, hqu1, hnp1, hlen1⟩ :=
    urlsplit_render S N P Q hsch hN hPq hPh hQh hshape
      (urlsplitList (renderURL S N P Q)) rfl
  have hreb : rebuild (urlsplitList (renderURL S N P Q)) = renderURL S N P Q := by
    rw [rebuild_assoc, hsc1, hqu1, hnp1]
    rfl
  show stripSlash (urlsplitList (renderURL S N P Q)) = _
  unfold stripSlash
  rw [hreb]
  rw [if_neg]
  intro hcontra
  rcases hnostrip with h3 | h3
  · exact h3 hcontra.1
  · have := hcontra.2
    omega

/-- Idempotence of `normalizeCore` for parses with a scheme, whose
rebuilt form does not end in a double slash, and whose query is not the
single slash. The hypotheses exclude exactly the cascading-strip
counterexamples. -/
theorem normalizeCore_idem (l : List Char)
    (hscheme : (urlsplitList l).scheme ≠ [])
    (hends : ¬ endsTwoSlash (rebuild (urlsplitList l)))
    (hquery : (urlsplitList l).query ≠ ['/']) :
    normalizeCore (normalizeCore l) = normalizeCore l := by
  obtain ⟨hN, hP, hQ, hS, hshape⟩ := urlsplitList_facts l
  have hsch := scheme_roundtrip_of_ne_nil l hscheme
  have hPq : ∀ c ∈ (urlsplitList l).path, c ≠ '?' := fun c hc => (hP c hc).1
  have hPh : ∀ c ∈ (urlsplitList l).path, c ≠ '#' := fun c hc => (hP c hc).2
  have hreb0 : rebuild (urlsplitList l) =
      renderURL (urlsplitList l).scheme (urlsplitList l).netloc
        (urlsplitList l).path (urlsplitList l).query := by
    rw [rebuild_assoc]
    rfl
  have hnu : normalizeCore l = stripSlash (urlsplitList l) := rfl
  by_cases hcond : (rebuild (urlsplitList l)).getLast? = some '/' ∧
      (urlsplitList l).path.length > 1
  · -- the strip fired on the first application
    have hs1 : stripSlash (urlsplitList l) =
        (rebuild (urlsplitList l)).dropLast := by
      unfold stripSlash
      rw [if_pos hcond]
    have hPne : (urlsplitList l).path ≠ [] := by
      intro h
      rw [h] at hcond
      simp at hcond
    by_cases hqe : (urlsplitList l).query = []
    · -- empty query: the slash came off the path
      have hdl : (rebuild (urlsplitList l)).dropLast =
          renderURL (urlsplitList l).scheme (urlsplitList l).netloc
            (urlsplitList l).path.dropLast [] := by
        rw [hreb0, hqe]
        exact renderURL_dropLast_q0 _ _ _ hPne
      have hshape2 : (urlsplitList l).path.dropLast = [] ∨
          (urlsplitList l).path.dropLast.head? = some '/' ∨
          (urlsplitList l).netloc = [] := by
        rcases hshape with h | h | h
        · exact absurd h hPne
        · right; left
          rw [dropLast_head_of_long _ hcond.2]
          exact h
        · exact Or.inr (Or.inr h)
      rw [hnu, hs1, hdl]
      apply normalizeCore_fixed _ _ _ _ hsch hN
        (fun c hc => hPq c ((List.dropLast_sublist _).subset hc))
        (fun c hc => hPh c ((List.dropLast_sublist _).subset hc))
        (by simp) hshape2
      left
      intro hlast
      apply hends
      exact ⟨hcond.1, by rw [hdl]; exact hlast⟩
    · -- nonempty query: the slash came off the query
      have hlastQ : (urlsplitList l).query.getLast? = some '/' := by
        have h1 := hcond.1
        rw [hreb0, renderURL_getLast_q _ _ _ _ hqe] at h1
        exact h1
      have hQdne : (urlsplitList l).query.dropLast ≠ [] := by
        intro hdl0
        exact hquery (eq_single_slash _ hqe hdl0 hlastQ)
      have hdl : (rebuild (urlsplitList l)).dropLast =
          renderURL (urlsplitList l).scheme (urlsplitList l).netloc
            (urlsplitList l).path (urlsplitList l).query.dropLast := by
        rw [hreb0]
        exact renderURL_dropLast_q _ _ _ _ hQdne
      rw [hnu, hs1, hdl]
      apply normalizeCore_fixed _ _ _ _ hsch hN hPq hPh
        (fun c hc => hQ c ((List.dropLast_sublist _).subset hc)) hshape
      left
      intro hlast
      apply hends
      exact ⟨hcond.1, by rw [hdl]; exact hlast⟩
  · -- the strip did not fire: the rendered URL is already a fixed point
    have hs1 : stripSlash (urlsplitList l) = rebuild (urlsplitList l) := by
      unfold stripSlash
      rw [if_neg hcond]
    rw [hnu, hs1, hreb0]
    apply normalizeCore_fixed _ _ _ _ hsch hN hPq hPh hQ hshape
    by_cases hl : (renderURL (urlsplitList l).scheme (urlsplitList l).netloc
        (urlsplitList l).path (urlsplitList l).query).getLast? = some '/'
    · right
      by_contra hlen
      apply hcond
      constructor
      · rw [hreb0]
        exact hl
      · omega
    · left
      exact hl

/-- `rebuild` of explicit components is the rendered URL (the stored
fragment is never rebuilt). -/
theorem rebuild_parts (S N P Q f : List Char) :
    rebuild { scheme := S, netloc := N, path := P, query := Q, fragment := f } =
      renderURL S N P Q := by
  rw [rebuild_assoc]
  rfl

/-- The remainder of a successful scheme split consists of characters of
the original list. -/
theorem splitScheme_rest_mem {cs S rest : List Char}
    (h : splitScheme cs = some (S, rest)) : ∀ c ∈ rest, c ∈ cs := by
  unfold splitScheme at h
  cases hd : cs.dropWhile (fun c => c != ':') with
  | nil =>
      rw [hd] at h
      simp at h
  | cons x r2 =>
      rw [hd] at h
      cases hp : cs.takeWhile (fun c => c != ':') with
      | nil =>
          rw [hp] at h
          simp at h
      | cons c0 restPre =>
          rw [hp] at h
          dsimp only at h
          by_cases hc : c0.isAlpha && restPre.all isSchemeChar
          · rw [if_pos hc] at h
            simp only [Option.some.injEq, Prod.mk.injEq] at h
            obtain ⟨-, hrest⟩ := h
            subst hrest
            intro c hcm
            have h2 : c ∈ cs.dropWhile (fun c => c != ':') := by
              rw [hd]
              exact List.mem_cons_of_mem _ hcm
            exact (List.dropWhile_sublist _).subset h2
          · rw [if_neg hc] at h
            simp at h

/-- The netloc, path and query of a parse consist of characters of the
parsed list. -/
theorem urlsplit_mem (l : List Char) :
    (∀ c ∈ (urlsplitList l).netloc, c ∈ l) ∧
    (∀ c ∈ (urlsplitList l).path, c ∈ l) ∧
    (∀ c ∈ (urlsplitList l).query, c ∈ l) := by
  have after : ∀ (s n r2 : List Char),
      (∀ c ∈ (urlsplitAfterNetloc s n r2).path, c ∈ r2) ∧
      (∀ c ∈ (urlsplitAfterNetloc s n r2).query, c ∈ r2) := by
    intro s n r2
    constructor
    · intro c hc
      have hc2 : c ∈ (splitAtFirst '?' (splitAtFirst '#' r2).1).1 := hc
      exact (List.takeWhile_sublist _).subset ((List.takeWhile_sublist _).subset hc2)
    · intro c hc
      have hc2 : c ∈ (splitAtFirst '?' (splitAtFirst '#' r2).1).2 := hc
      exact (List.takeWhile_sublist _).subset
        ((List.dropWhile_sublist _).subset ((List.drop_sublist 1 _).subset hc2))
  have noscheme : ∀ (s r1 : List Char),
      (∀ c ∈ (urlsplitNoScheme s r1).netloc, c ∈ r1) ∧
      (∀ c ∈ (urlsplitNoScheme s r1).path, c ∈ r1) ∧
      (∀ c ∈ (urlsplitNoScheme s r1).query, c ∈ r1) := by
    intro s r1
    unfold urlsplitNoScheme
    by_cases h2 : r1.take 2 = ['/', '/']
    · rw [if_pos h2]
      obtain ⟨hp, hq⟩ := after s
        ((r1.drop 2).takeWhile (fun c => !isNetlocEnd c))
        ((r1.drop 2).dropWhile (fun c => !isNetlocEnd c))
      refine ⟨?_, ?_, ?_⟩
      · intro c hc
        have hc2 : c ∈ (r1.drop 2).takeWhile (fun c => !isNetlocEnd c) := hc
        exact (List.drop_sublist 2 _).subset ((List.takeWhile_sublist _).subset hc2)
      · intro c hc
        exact (List.drop_sublist 2 _).subset ((List.dropWhile_sublist _).subset (hp c hc))
      · intro c hc
        exact (List.drop_sublist 2 _).subset ((List.dropWhile_sublist _).subset (hq c hc))
    · rw [if_neg h2]
      obtain ⟨hp, hq⟩ := after s [] r1
      refine ⟨?_, hp, hq⟩
      intro c hc
      simp [urlsplitAfterNetloc] at hc
  unfold urlsplitList
  cases hs : splitScheme l with
  | none => exact noscheme [] l
  | some pr =>
      cases pr with
      | mk S rest =>
          obtain ⟨h1, h2, h3⟩ := noscheme S rest
          have hrest := splitScheme_rest_mem hs
          exact ⟨fun c hc => hrest c (h1 c hc), fun c hc => hrest c (h2 c hc),
            fun c hc => hrest c (h3 c hc)⟩

/-- A nonempty parsed scheme consists of scheme characters and starts
with a letter. -/
theorem scheme_facts_of_ne_nil (l : List Char)
    (h : (urlsplitList l).scheme ≠ []) :
    (∀ c ∈ (urlsplitList l).scheme, isSchemeChar c = true) ∧
    ∃ c0, (urlsplitList l).scheme.head? = some c0 ∧ c0.isAlpha = true := by
  cases hs : splitScheme l with
  | none =>
      exfalso
      apply h
      unfold urlsplitList
      rw [hs]
      exact urlsplitNoScheme_scheme [] l
  | some pr =>
      cases pr with
      | mk S rest =>
          have hfield : (urlsplitList l).scheme = S := by
            unfold urlsplitList
            rw [hs]
            exact urlsplitNoScheme_scheme S rest
          rw [hfield]
          constructor
          · intro c hc
            exact (splitScheme_chars hs c hc).1
          · obtain ⟨c0, pre, hS, hal, -⟩ := splitScheme_some hs
            refine ⟨pyCharLower c0, ?_, alpha_pyCharLower c0 hal⟩
            rw [hS]
            rfl

/-- Scheme characters are neither unsafe URL bytes nor C0 controls or
space. -/
theorem isSchemeChar_plain (c : Char) (h : isSchemeChar c = true) :
    isUnsafeURLByte c = false ∧ isC0OrSpace c = false := by
  have h2 := (isSchemeChar_toNat c).mp h
  constructor
  · unfold isUnsafeURLByte
    have ht : (c == '\t') = false := beq_eq_false_iff_ne.mpr (fun he => by
      subst he
      exact absurd h2 (by decide))
    have hr : (c == '\r') = false := beq_eq_false_iff_ne.mpr (fun he => by
      subst he
      exact absurd h2 (by decide))
    have hn : (c == '\n') = false := beq_eq_false_iff_ne.mpr (fun he => by
      subst he
      exact absurd h2 (by decide))
    rw [ht, hr, hn]
    rfl
  · unfold isC0OrSpace
    simp only [decide_eq_false_iff_not]
    omega

/-- Characters of a rebuilt URL come from its components or are one of
the three inserted separators. -/
theorem rebuild_mem {c : Char} {p : URLParts} (h : c ∈ rebuild p) :
    c ∈ p.scheme ∨ c ∈ p.netloc ∨ c ∈ p.path ∨ c ∈ p.query ∨
      c = ':' ∨ c = '/' ∨ c = '?' := by
  unfold rebuild at h
  simp only [List.mem_append] at h
  rcases h with ((((h | h) | h) | h) | h)
  · exact Or.inl h
  · simp only [List.mem_cons, List.mem_singleton, List.not_mem_nil, or_false] at h
    rcases h with h | h | h
    · exact Or.inr (Or.inr (Or.inr (Or.inr (Or.inl h))))
    · exact Or.inr (Or.inr (Or.inr (Or.inr (Or.inr (Or.inl h)))))
    · exact Or.inr (Or.inr (Or.inr (Or.inr (Or.inr (Or.inl h)))))
  · exact Or.inr (Or.inl h)
  · exact Or.inr (Or.inr (Or.inl h))
  · by_cases hq : p.query.isEmpty
    · rw [if_pos hq] at h
      simp at h
    · rw [if_neg hq] at h
      rcases List.mem_cons.mp h with h2 | h2
      · exact Or.inr (Or.inr (Or.inr (Or.inr (Or.inr (Or.inr h2)))))
      · exact Or.inr (Or.inr (Or.inr (Or.inl h2)))

/-- `stripSlash` keeps only characters of the rebuilt URL. -/
theorem stripSlash_mem {c : Char} {p : URLParts} (h : c ∈ stripSlash p) :
    c ∈ rebuild p := by
  unfold stripSlash at h
  by_cases hc : (rebuild p).getLast? = some '/' ∧ p.path.length > 1
  · rw [if_pos hc] at h
    exact (List.dropLast_sublist _).subset h
  · rw [if_neg hc] at h
    exact h

/-- A rebuilt URL with a nonempty scheme starts with the scheme's head. -/
theorem rebuild_head (p : URLParts) (h : p.scheme ≠ []) :
    (rebuild p).head? = p.scheme.head? := by
  unfold rebuild
  cases hs : p.scheme with
  | nil => exact absurd hs h
  | cons a t => rfl

/-- A rebuilt URL with a nonempty scheme has more than one character. -/
theorem rebuild_long (p : URLParts) (h : p.scheme ≠ []) :
    1 < (rebuild p).length := by
  unfold rebuild
  have h1 : 0 < p.scheme.length := List.length_pos.mpr h
  simp only [List.length_append, List.length_cons]
  omega

/-- `preprocess` fixes a list with no unsafe bytes whose head is not a
C0 control or space. -/
theorem preprocess_eq_self (l : List Char)
    (h1 : ∀ c ∈ l, isUnsafeURLByte c = false)
    (h2 : ∀ c, l.head? = some c → isC0OrSpace c = false) :
    preprocess l = l := by
  unfold preprocess
  have hdrop : l.dropWhile isC0OrSpace = l := by
    cases l with
    | nil => rfl
    | cons a t =>
        have ha := h2 a rfl
        rw [List.dropWhile_cons_of_neg (by simp [ha])]
  rw [hdrop]
  apply List.filter_eq_self.mpr
  intro c hc
  rw [h1 c hc]
  rfl

/-- `preprocess` fixes any `normalizeCore` result computed from an
unsafe-byte-free list whose parse has a scheme. -/
theorem preprocess_normalizeCore (l : List Char)
    (hl : ∀ c ∈ l, isUnsafeURLByte c = false)
    (hscheme : (urlsplitList l).scheme ≠ []) :
    preprocess (normalizeCore l) = normalizeCore l := by
  obtain ⟨hsc, c0, hhead0, halpha⟩ := scheme_facts_of_ne_nil l hscheme
  obtain ⟨hnm, hpm, hqm⟩ := urlsplit_mem l
  apply preprocess_eq_self
  · intro c hc
    have h2 := rebuild_mem (stripSlash_mem hc)
    rcases h2 with h | h | h | h | h | h | h
    · exact (isSchemeChar_plain c (hsc c h)).1
    · exact hl c (hnm c h)
    · exact hl c (hpm c h)
    · exact hl c (hqm c h)
    · subst h
      rfl
    · subst h
      rfl
    · subst h
      rfl
  · intro c hc
    have hhead : (normalizeCore l).head? = some c0 := by
      have hrb : (rebuild (urlsplitList l)).head? = some c0 := by
        rw [rebuild_head _ hscheme]
        exact hhead0
      unfold normalizeCore stripSlash
      by_cases hcnd : (rebuild (urlsplitList l)).getLast? = some '/' ∧
          (urlsplitList l).path.length > 1
      · rw [if_pos hcnd]
        rw [dropLast_head_of_long _ (rebuild_long _ hscheme)]
        exact hrb
      · rw [if_neg hcnd]
        exact hrb
    rw [hc] at hhead
    have hce : c = c0 := Option.some.inj hhead
    subst hce
    have h3 := (isAlpha_toNat c).mp halpha
    unfold isC0OrSpace
    simp only [decide_eq_false_iff_not]
    omega

/-- Decomposition computed by `splitAtLastSlash`. -/
theorem splitAtLastSlash_eq (path : List Char) :
    ∀ pre seg, splitAtLastSlash path = some (pre, seg) → path = pre ++ '/' :: seg := by
  induction path with
  | nil =>
      intro pre seg h
      simp [splitAtLastSlash] at h
  | cons a t ih =>
      intro pre seg h
      unfold splitAtLastSlash at h
      cases hs : splitAtLastSlash t with
      | some pr =>
          cases pr with
          | mk p2 s2 =>
              rw [hs] at h
              dsimp only at h
              simp only [Option.some.injEq, Prod.mk.injEq] at h
              obtain ⟨h1, h2⟩ := h
              subst h1
              subst h2
              rw [ih p2 s2 hs]
              rfl
      | none =>
          rw [hs] at h
          by_cases ha : a = '/'
          · rw [if_pos ha] at h
            simp only [Option.some.injEq, Prod.mk.injEq] at h
            obtain ⟨h1, h2⟩ := h
            subst h1
            subst h2
            subst ha
            rfl
          · rw [if_neg ha] at h
            simp at h

/-- `splitAtLastSlash` after appending a final slash. -/
theorem splitAtLastSlash_concat (pre : List Char) :
    splitAtLastSlash (pre ++ ['/']) = some (pre, []) := by
  induction pre with
  | nil => rfl
  | cons a t ih =>
      show splitAtLastSlash (a :: (t ++ ['/'])) = some (a :: t, [])
      unfold splitAtLastSlash
      rw [ih]

/-- The path kept by `_splitparams` consists of characters of the
original path. -/
theorem splitparams_fst_mem (path : List Char) :
    ∀ c ∈ (splitparams path).1, c ∈ path := by
  unfold splitparams
  cases hs : splitAtLastSlash path with
  | some pr =>
      cases pr with
      | mk pre seg =>
          have hdec := splitAtLastSlash_eq path pre seg hs
          dsimp only
          by_cases hsemi : ';' ∈ seg
          · rw [if_pos hsemi]
            intro c hc
            dsimp only at hc
            rw [hdec]
            rcases List.mem_append.mp hc with h | h
            · exact List.mem_append.mpr (Or.inl h)
            · rcases List.mem_cons.mp h with h2 | h2
              · exact List.mem_append.mpr (Or.inr (List.mem_cons.mpr (Or.inl h2)))
              · exact List.mem_append.mpr (Or.inr (List.mem_cons.mpr (Or.inr
                  ((List.takeWhile_sublist _).subset h2))))
          · rw [if_neg hsemi]
            intro c hc
            exact hc
  | none =>
      dsimp only
      by_cases hsemi : ';' ∈ path
      · rw [if_pos hsemi]
        intro c hc
        exact (List.takeWhile_sublist _).subset hc
      · rw [if_neg hsemi]
        intro c hc
        exact (List.dropLast_sublist _).subset hc

/-- A path ending in a slash is unchanged by `_splitparams`: no `;` can
occur at or after the last slash. -/
theorem splitparams_concat (pre : List Char) :
    splitparams (pre ++ ['/']) = (pre ++ ['/'], []) := by
  unfold splitparams
  rw [splitAtLastSlash_concat pre]
  dsimp only
  rw [if_neg (by simp)]

/-- When the params split leaves the path unchanged (or cannot fire),
`urlparse` followed by dropping the params recovers the split result. -/
theorem parseParts_urlparseParts (p : URLParts)
    (h : ';' ∈ p.path → (splitparams p.path).1 = p.path) :
    parseParts (urlparseParts p) = p := by
  unfold parseParts urlparseParts
  by_cases hc : p.scheme ∈ uses_params ∧ ';' ∈ p.path
  · rw [if_pos hc]
    dsimp only
    rw [h hc.2]
  · rw [if_neg hc]

/-- Field-level view of `urlparse` with params dropped: scheme, netloc
and query pass through; the path keeps a subset of its characters. -/
theorem urlparseParts_fields (p : URLParts) :
    (parseParts (urlparseParts p)).scheme = p.scheme ∧
    (parseParts (urlparseParts p)).netloc = p.netloc ∧
    (parseParts (urlparseParts p)).query = p.query ∧
    ∀ c ∈ (parseParts (urlparseParts p)).path, c ∈ p.path := by
  unfold parseParts urlparseParts
  by_cases hc : p.scheme ∈ uses_params ∧ ';' ∈ p.path
  · rw [if_pos hc]
    refine ⟨rfl, rfl, rfl, ?_⟩
    intro c hcm
    exact splitparams_fst_mem p.path c hcm
  · rw [if_neg hc]
    exact ⟨rfl, rfl, rfl, fun c hcm => hcm⟩

/-- No hash character occurs in the normalized rebuild of any parse:
the fragment is cut before the query and never rebuilt. -/
theorem hash_not_in_stripSlash_parse (l : List Char) :
    '#' ∉ stripSlash (parseParts (urlparseParts (urlsplitList l))) := by
  obtain ⟨hN, hP, hQ, hS, -⟩ := urlsplitList_facts l
  obtain ⟨hfs, hfn, hfq, hfp⟩ := urlparseParts_fields (urlsplitList l)
  intro hmem
  have h2 := rebuild_mem (stripSlash_mem hmem)
  rcases h2 with h | h | h | h | h | h | h
  · rw [hfs] at h
    exact hS _ h rfl
  · rw [hfn] at h
    have h3 := hN _ h
    simp [isNetlocEnd] at h3
  · exact (hP _ (hfp _ h)).2 rfl
  · rw [hfq] at h
    exact hQ _ h rfl
  · exact absurd h (by decide)
  · exact absurd h (by decide)
  · exact absurd h (by decide)

/-- The netloc checks pass on any bracket-free all-ASCII netloc,
whatever the oracles. -/
theorem checksOK_plain (ip : List Char → IpKind) (nfkc : List Char → List Char)
    (netloc : List Char)
    (hb : ∀ c ∈ netloc, c ≠ '[' ∧ c ≠ ']')
    (ha : ∀ c ∈ netloc, c.toNat < 128) :
    urlsplitChecksOK ip nfkc netloc = true := by
  have hno1 : '[' ∉ netloc := fun h => (hb _ h).1 rfl
  have hno2 : ']' ∉ netloc := fun h => (hb _ h).2 rfl
  unfold urlsplitChecksOK
  rw [if_neg (fun h => h.elim (fun h2 => hno1 h2.1) (fun h2 => hno2 h2.1))]
  rw [if_neg (fun h => hno1 h.1)]
  unfold checknetloc
  rw [if_pos (Or.inr ha)]

/-- Reparsing a `normalizeCore` result computed from a parse with a
scheme and a nonempty netloc recovers the netloc exactly and keeps only
path characters. -/
theorem normalizeCore_parts (l : List Char)
    (hscheme : (urlsplitList l).scheme ≠ [])
    (hnet : (urlsplitList l).netloc ≠ [])
    (hquery : (urlsplitList l).query ≠ ['/']) :
    (urlsplitList (normalizeCore l)).netloc = (urlsplitList l).netloc ∧
    (∀ c ∈ (urlsplitList (normalizeCore l)).path, c ∈ (urlsplitList l).path) := by
  obtain ⟨hN, hP, hQ, hS, hshape0⟩ := urlsplitList_facts l
  have hsch := scheme_roundtrip_of_ne_nil l hscheme
  have hcore : normalizeCore l = stripSlash (urlsplitList l) := rfl
  rw [hcore]
  rcases hu : urlsplitList l with ⟨S, N, P, Q, F⟩
  rw [hu] at hN hP hQ hS hshape0 hsch hscheme hnet hquery
  dsimp only at hN hP hQ hS hshape0 hsch hscheme hnet hquery ⊢
  have hPq : ∀ c ∈ P, c ≠ '?' := fun c hc => (hP c hc).1
  have hPh : ∀ c ∈ P, c ≠ '#' := fun c hc => (hP c hc).2
  have hshape : P = [] ∨ P.head? = some '/' := by
    rcases hshape0 with h | h | h
    · exact Or.inl h
    · exact Or.inr h
    · exact absurd h hnet
  have hreb : rebuild ⟨S, N, P, Q, F⟩ = renderURL S N P Q := rebuild_parts S N P Q F
  by_cases hcond : (rebuild ⟨S, N, P, Q, F⟩).getLast? = some '/' ∧
      (URLParts.mk S N P Q F).path.length > 1
  · have hPlen : 1 < P.length := hcond.2
    have hPne : P ≠ [] := by
      intro h
      rw [h] at hPlen
      simp at hPlen
    have hPhead : P.head? = some '/' := by
      rcases hshape with h | h
      · exact absurd h hPne
      · exact h
    have hs1 : stripSlash ⟨S, N, P, Q, F⟩ = (rebuild ⟨S, N, P, Q, F⟩).dropLast := by
      unfold stripSlash
      rw [if_pos hcond]
    by_cases hqe : Q = []
    · have hdl : (rebuild ⟨S, N, P, Q, F⟩).dropLast = renderURL S N P.dropLast [] := by
        rw [hreb, hqe]
        exact renderURL_dropLast_q0 _ _ _ hPne
      have hparse := urlsplit_render_exact S N P.dropLast [] hsch hN
        (fun c hc => hPq c ((List.dropLast_sublist _).subset hc))
        (fun c hc => hPh c ((List.dropLast_sublist _).subset hc))
        (by simp)
        (by rw [dropLast_head_of_long _ hPlen]; exact hPhead)
      rw [hs1, hdl]
      rw [show renderURL S N P.dropLast [] = S ++ ':' :: '/' :: '/' ::
          (N ++ P.dropLast ++ (if ([] : List Char).isEmpty then []
            else '?' :: ([] : List Char))) from rfl]
      rw [hparse]
      exact ⟨rfl, fun c hc => (List.dropLast_sublist _).subset hc⟩
    · have hlastQ : Q.getLast? = some '/' := by
        have h1 := hcond.1
        rw [hreb, renderURL_getLast_q _ _ _ _ hqe] at h1
        exact h1
      have hQdne : Q.dropLast ≠ [] := by
        intro hdl0
        exact hquery (eq_single_slash _ hqe hdl0 hlastQ)
      have hdl : (rebuild ⟨S, N, P, Q, F⟩).dropLast = renderURL S N P Q.dropLast := by
        rw [hreb]
        exact renderURL_dropLast_q _ _ _ _ hQdne
      have hparse := urlsplit_render_exact S N P Q.dropLast hsch hN hPq hPh
        (fun c hc => hQ c ((List.dropLast_sublist _).subset hc)) hPhead
      rw [hs1, hdl]
      rw [show renderURL S N P Q.dropLast = S ++ ':' :: '/' :: '/' ::
          (N ++ P ++ (if Q.dropLast.isEmpty then [] else '?' :: Q.dropLast)) from rfl]
      rw [hparse]
      exact ⟨rfl, fun c hc => hc⟩
  · have hs1 : stripSlash ⟨S, N, P, Q, F⟩ = rebuild ⟨S, N, P, Q, F⟩ := by
      unfold stripSlash
      rw [if_neg hcond]
    rw [hs1, hreb]
    rcases hshape with hPnil | hPhead
    · subst hPnil
      obtain ⟨-, -, -, happ, hlen⟩ := urlsplit_render S N [] Q hsch hN
        (by simp) (by simp) hQ (Or.inl rfl)
        (urlsplitList (S ++ ':' :: '/' :: '/' ::
          (N ++ [] ++ (if Q.isEmpty then [] else '?' :: Q)))) rfl
      rw [show renderURL S N [] Q = S ++ ':' :: '/' :: '/' ::
          (N ++ [] ++ (if Q.isEmpty then [] else '?' :: Q)) from rfl]
      have hpath0 : (urlsplitList (S ++ ':' :: '/' :: '/' ::
          (N ++ [] ++ (if Q.isEmpty then [] else '?' :: Q)))).path = [] := by
        have hlen0 : (urlsplitList (S ++ ':' :: '/' :: '/' ::
            (N ++ [] ++ (if Q.isEmpty then [] else '?' :: Q)))).path.length = 0 := by
          simp only [List.length_nil] at hlen
          omega
        exact List.eq_nil_of_length_eq_zero hlen0
      constructor
      · rw [hpath0] at happ
        simpa using happ
      · intro c hc
        rw [hpath0] at hc
        simp at hc
    · have hparse := urlsplit_render_exact S N P Q hsch hN hPq hPh hQ hPhead
      rw [show renderURL S N P Q = S ++ ':' :: '/' :: '/' ::
          (N ++ P ++ (if Q.isEmpty then [] else '?' :: Q)) from rfl]
      rw [hparse]
      exact ⟨rfl, fun c hc => hc⟩

/-- `normalize_url` as a single conditional on the netloc checks. -/
theorem normalize_url_eq (ip : List Char → IpKind) (nfkc : List Char → List Char)
    (u : String) :
    normalize_url ip nfkc u =
      if urlsplitChecksOK ip nfkc (urlsplitList (preprocess u.toList)).netloc then
        some (String.mk (stripSlash (parseParts (urlparseParts
          (urlsplitList (preprocess u.toList))))))
      else none := by
  unfold normalize_url urlparse urlsplit
  by_cases h : urlsplitChecksOK ip nfkc (urlsplitList (preprocess u.toList)).netloc = true
  · rw [if_pos h, if_pos h]
  · rw [if_neg h, if_neg h]

/-! ## Claim C1 -/

/-- C1: the post-crawl indexing phase cannot update `chunks_generated`
and `embedded` through `mark_url_as_embedded`, because `MetadataDB`
defines no method of that name; the `AttributeError` raised at the call
site in `process_scraped_data_to_rag` is swallowed by its per-URL
exception handler, so every indexed `ScrapedURL` row keeps its default
`embedded = 0` and `chunks_generated = 0`. -/
theorem mark_url_as_embedded_is_missing :
    "mark_url_as_embedded" ∉ metadata_db_methods ∧
    ∀ (row : ScrapedURLRow) (chunks : Nat), index_scraped_url row chunks = row := by
  refine ⟨by decide, fun row chunks => ?_⟩
  unfold index_scraped_url
  rw [if_neg (by decide : ¬ ("mark_url_as_embedded" ∈ metadata_db_methods))]

/-! ## Claim C2 -/

/-- Associativity of string append, used to normalize detail strings. -/
theorem strAppend_assoc (a b c : String) : a ++ (b ++ c) = a ++ b ++ c := by
  cases a with
  | mk la =>
      cases b with
      | mk lb =>
          cases c with
          | mk lc => exact congrArg String.mk (List.append_assoc la lb lc).symm

/-- C2: an export request whose lowercased format is none of `json`,
`csv`, `markdown`, `md` does not yield a file, but the error the client
receives is HTTP 500, not 400: the `HTTPException(status_code=400, ...)`
raised for the unsupported format is caught by the catch-all
`except Exception` of the same handler and re-raised as
`HTTPException(status_code=500, detail=str(e))`. -/
theorem export_unsupported_format_gives_500 {α : Type}
    (render_json render_csv render_md : α → String)
    (dataTypeOf entityOf : α → Option String) (req : ExportRequest α)
    (h1 : pyLower req.format ≠ "json") (h2 : pyLower req.format ≠ "csv")
    (h3 : pyLower req.format ≠ "markdown") (h4 : pyLower req.format ≠ "md") :
    export_data render_json render_csv render_md dataTypeOf entityOf req =
      Except.error
        { status_code := 500
          detail := "400: Unsupported format: " ++ pyLower req.format } := by
  simp [export_data, export_body, exceptionStr, h1, h2, h3, h4]
  rw [strAppend_assoc]
  rfl

/-- Witness for C2 at the concrete failing request `format = "xml"`. -/
theorem export_unsupported_format_gives_500_witness :
    export_data (fun _ : Unit => "") (fun _ => "") (fun _ => "")
        (fun _ => none) (fun _ => none) { data := (), format := "xml", filename := none } =
      Except.error { status_code := 500, detail := "400: Unsupported format: xml" } := by
  have h := export_unsupported_format_gives_500 (fun _ : Unit => "") (fun _ => "")
    (fun _ => "") (fun _ => none) (fun _ => none)
    { data := (), format := "xml", filename := none }
    (by decide) (by decide) (by decide) (by decide)
  exact h

/-! ## Claim C3 -/

/-- The field effect of one `update_job_status` call on `started_at`:
set to now exactly when the new status is RUNNING and the job has not
started yet, otherwise untouched. -/
theorem update_job_status_started (j : ScrapeJobRow) (s : JobStatus)
    (e : Option String) (n : Nat) :
    (update_job_status j s e n).started_at =
      if s = JobStatus.running ∧ j.started_at = none then some n
      else j.started_at := by
  unfold update_job_status
  by_cases h1 : s = JobStatus.running ∧ j.started_at = none
  · cases e with
    | none => simp [h1]
    | some msg =>
        by_cases h2 : msg = "" <;> simp [h1, h2]
  · by_cases h3 : isTerminalStatus s <;>
      cases e with
      | none => simp [h1, h3]
      | some msg => by_cases h2 : msg = "" <;> simp [h1, h2, h3]

/-- The field effect of one `update_job_status` call on `completed_at`:
set to now on every call whose status is terminal (COMPLETED, FAILED or
CANCELLED), otherwise untouched. A terminal status is never RUNNING, so
the `elif` branch is reached whenever the status is terminal. -/
theorem update_job_status_completed (j : ScrapeJobRow) (s : JobStatus)
    (e : Option String) (n : Nat) :
    (update_job_status j s e n).completed_at =
      if isTerminalStatus s then some n else j.completed_at := by
  unfold update_job_status
  by_cases h3 : isTerminalStatus s
  · have hr : ¬ (s = JobStatus.running ∧ j.started_at = none) := by
      rintro ⟨rfl, -⟩
      simp [isTerminalStatus] at h3
    cases e with
    | none => simp [hr, h3]
    | some msg => by_cases h2 : msg = "" <;> simp [hr, h2, h3]
  · by_cases h1 : s = JobStatus.running ∧ j.started_at = none <;>
      cases e with
      | none =>
          simp [h1, h3, isTerminalStatus]
          try (split <;> rfl)
      | some msg =>
          by_cases h2 : msg = "" <;>
            (simp [h1, h2, h3, isTerminalStatus]; try (split <;> rfl))

/-- `find?` on an appended list: the first hit of the left part wins. -/
theorem find?_append' {α : Type} (p : α → Bool) (l₁ l₂ : List α) :
    (l₁ ++ l₂).find? p =
      match l₁.find? p with
      | some a => some a
      | none => l₂.find? p := by
  induction l₁ with
  | nil => simp
  | cons a t ih =>
      by_cases h : p a <;> simp [List.find?_cons, h, ih]

/-- Replaying a call sequence leaves `started_at` at its first set value:
it becomes the timestamp of the first RUNNING call when initially unset,
and is never changed afterwards. -/
theorem run_status_updates_started (calls : List StatusCall) (j : ScrapeJobRow) :
    (run_status_updates j calls).started_at =
      match j.started_at with
      | some t => some t
      | none =>
          (calls.find? (fun c => c.status == JobStatus.running)).map
            (fun c => c.now) := by
  induction calls generalizing j with
  | nil =>
      cases h : j.started_at <;> simp [run_status_updates, h]
  | cons c cs ih =>
      have step : run_status_updates j (c :: cs) =
          run_status_updates (update_job_status j c.status c.error_message c.now) cs := rfl
      rw [step, ih]
      rw [update_job_status_started]
      cases hj : j.started_at with
      | some t =>
          have : ¬ (c.status = JobStatus.running ∧ j.started_at = none) := by
            simp [hj]
          simp [this]
      | none =>
          by_cases hr : c.status = JobStatus.running
          · simp [hr, hj, List.find?_cons]
          · have : ¬ (c.status = JobStatus.running ∧ j.started_at = none) := by
              simp [hr]
            have hb : (c.status == JobStatus.running) = false := by
              simp [hr]
            simp [this, hj, List.find?_cons, hb, hr]

/-- Replaying a call sequence sets `completed_at` to the timestamp of the
last terminal call, overwriting any earlier value. -/
theorem run_status_updates_completed (calls : List StatusCall) (j : ScrapeJobRow) :
    (run_status_updates j calls).completed_at =
      match calls.reverse.find? (fun c => isTerminalStatus c.status) with
      | some c => some c.now
      | none => j.completed_at := by
  induction calls generalizing j with
  | nil => simp [run_status_updates]
  | cons c cs ih =>
      have step : run_status_updates j (c :: cs) =
          run_status_updates (update_job_status j c.status c.error_message c.now) cs := rfl
      rw [step, ih]
      rw [update_job_status_completed]
      have hrev : (c :: cs).reverse = cs.reverse ++ [c] := by simp
      rw [hrev, find?_append']
      cases hfind : cs.reverse.find? (fun c => isTerminalStatus c.status) with
      | some d => simp
      | none =>
          by_cases ht : isTerminalStatus c.status <;> simp [List.find?_cons, ht]

/-- C3 counterexample: on a fresh job, a COMPLETED transition at time 5
followed by a FAILED transition at time 9 leaves `completed_at = 9`: the
timestamp written by the first terminal transition is overwritten by the
later terminal-status call, contradicting the claim that `completed_at`
is set exactly once and never overwritten. -/
theorem completed_at_overwritten_counterexample :
    (run_status_updates fresh_job
        [{ status := JobStatus.completed, error_message := none, now := 5 },
         { status := JobStatus.failed, error_message := none, now := 9 }]).completed_at ≠
      some 5 ∧
    (run_status_updates fresh_job
        [{ status := JobStatus.completed, error_message := none, now := 5 },
         { status := JobStatus.failed, error_message := none, now := 9 }]).completed_at =
      some 9 := by
  decide

/-- C3 amended: for any sequence of `update_job_status` calls on a fresh
job, `started_at` is set on exactly the first transition into RUNNING
(and never overwritten afterwards), while `completed_at` ends up as the
timestamp of the LAST transition into a terminal status — the code sets
it on every terminal-status call, overwriting earlier values. -/
theorem update_job_status_timestamps (calls : List StatusCall) :
    (run_status_updates fresh_job calls).started_at =
      (calls.find? (fun c => c.status == JobStatus.running)).map (fun c => c.now) ∧
    (run_status_updates fresh_job calls).completed_at =
      (calls.reverse.find? (fun c => isTerminalStatus c.status)).map (fun c => c.now) := by
  constructor
  · rw [run_status_updates_started]
    simp [fresh_job]
  · rw [run_status_updates_completed]
    cases calls.reverse.find? (fun c => isTerminalStatus c.status) <;> simp [fresh_job]

/-! ## Claim C4 -/

/-- C4 counterexample: when every attempt times out, the static fetch
path makes exactly 3 attempts and returns no page data, but the backoff
delays between attempts are 1s and 2s — two gaps, not the claimed
1s, 2s, 4s: the `2 ** attempt` sleep is skipped after the final attempt
(`if attempt < retry_count - 1`). -/
theorem fetch_httpx_timeout_backoff_counterexample :
    (fetch_httpx (fun _ => AttemptOutcome.timeout) false true 3).result = none ∧
    (fetch_httpx (fun _ => AttemptOutcome.timeout) false true 3).attempts = 3 ∧
    (fetch_httpx (fun _ => AttemptOutcome.timeout) false true 3).backoff_delays = [1, 2] ∧
    (fetch_httpx (fun _ => AttemptOutcome.timeout) false true 3).backoff_delays ≠ [1, 2, 4] := by
  decide

/-- C4 amended: a URL whose every attempt times out is attempted exactly
3 times, with increasing delays of 1s and 2s between consecutive
attempts (`2 ** attempt` seconds after each non-final failed attempt),
and fetch returns no page data. -/
theorem fetch_httpx_all_timeouts (net : Nat → AttemptOutcome)
    (h : ∀ i, net i = AttemptOutcome.timeout) :
    fetch_httpx net false true 3 =
      { result := none, attempts := 3, backoff_delays := [1, 2] } := by
  simp [fetch_httpx, fetchAttempts, h 0, h 1, h 2]

/-- Witness for C4 amended at the concrete all-timeout oracle. -/
theorem fetch_httpx_all_timeouts_witness :
    fetch_httpx (fun _ => AttemptOutcome.timeout) false true 3 =
      { result := none, attempts := 3, backoff_delays := [1, 2] } :=
  fetch_httpx_all_timeouts _ (fun _ => rfl)

/-! ## Claim C7 -/

/-- C7: when retrieval returns zero results, `answer_query` returns the
fixed apology text as the answer, an empty sources list, the empty raw
search results, and performs no LLM call (and no structured-extraction
step runs, whatever was requested). -/
theorem answer_query_empty_retrieval
    (llm : String → String → Except String String)
    (llmExtract : String → String → String → Option String)
    (query : String) (results : List SearchResult) (extract_structured : Bool)
    (h : results = []) :
    answer_query llm llmExtract query results extract_structured =
      { query := query, answer := no_results_answer, sources := []
        search_results := [], llm_calls := 0, extraction := none } := by
  subst h
  rfl

/-- Witness for C7 at a concrete query with empty retrieval. -/
theorem answer_query_empty_retrieval_witness :
    answer_query (fun _ _ => Except.ok "ignored") (fun _ _ _ => none) "what is on the menu" []
        true =
      { query := "what is on the menu", answer := no_results_answer, sources := []
        search_results := [], llm_calls := 0, extraction := none } :=
  answer_query_empty_retrieval _ _ _ _ _ rfl

/-! ## Claim C8 -/

/-- C8: a text in which exactly 2 distinct keywords of the fixed
multilingual menu-keyword set occur (case-insensitively, as substrings)
is classified as not a menu; a text with 3 or more distinct keywords is
classified as a menu. -/
theorem is_menu_pdf_threshold (text : String) :
    (menuKeywordMatches text = 2 → is_menu_pdf text = false) ∧
    (3 ≤ menuKeywordMatches text → is_menu_pdf text = true) := by
  refine ⟨fun h => ?_, fun h => ?_⟩
  · simp [is_menu_pdf, h]
  · simp [is_menu_pdf, h]

/-- Witness for C8: a text with exactly 2 keyword matches is rejected, a
text with 3 is accepted. -/
theorem is_menu_pdf_threshold_witness :
    (menuKeywordMatches "menu with price" = 2 ∧ is_menu_pdf "menu with price" = false) ∧
    (3 ≤ menuKeywordMatches "Menu Price Dessert" ∧ is_menu_pdf "Menu Price Dessert" = true) :=
  ⟨⟨by decide, (is_menu_pdf_threshold "menu with price").1 (by decide)⟩,
   ⟨by decide, (is_menu_pdf_threshold "Menu Price Dessert").2 (by decide)⟩⟩

/-! ## Claim C9 -/

/-- Rebuilding a string from its character list is the identity. -/
theorem strMk_toList (s : String) : String.mk s.toList = s := by
  cases s
  rfl

/-- Character list of an appended string. -/
theorem strToList_append (a b : String) : (a ++ b).toList = a.toList ++ b.toList := by
  cases a
  cases b
  rfl

/-- A list is a prefix of itself extended on the right. -/
theorem isPrefixOf_self_append (l t : List Char) : l.isPrefixOf (l ++ t) = true := by
  induction l with
  | nil => simp [List.isPrefixOf]
  | cons a as ih => simp [List.isPrefixOf]

/-- Being a prefix survives extending the larger list on the right. -/
theorem isPrefixOf_extend {l m : List Char} (t : List Char)
    (h : l.isPrefixOf m = true) : l.isPrefixOf (m ++ t) = true := by
  induction l generalizing m with
  | nil => simp [List.isPrefixOf]
  | cons a as ih =>
      cases m with
      | nil => simp [List.isPrefixOf] at h
      | cons b bs =>
          simp only [List.isPrefixOf, Bool.and_eq_true, beq_iff_eq] at h
          simp only [List.cons_append, List.isPrefixOf, Bool.and_eq_true, beq_iff_eq]
          exact ⟨h.1, ih h.2⟩

/-- Joining one more sentence appends it after a space. -/
theorem joinSpace_append_singleton (l : List String) (s : String) (h : l ≠ []) :
    joinSpace (l ++ [s]) = joinSpace l ++ " " ++ s := by
  induction l with
  | nil => exact absurd rfl h
  | cons a t ih =>
      cases t with
      | nil => rfl
      | cons b t2 =>
          show a ++ " " ++ joinSpace ((b :: t2) ++ [s]) = a ++ " " ++ joinSpace (b :: t2) ++ " " ++ s
          rw [ih (by simp), strAppend_assoc, strAppend_assoc]

/-- With a nonzero overlap, the seed computed at a chunk break equals the
trailing `co` characters of the closed chunk. -/
theorem overlap_seed_eq (ctext : String) (co : Nat) (hco : co ≠ 0) :
    (if ctext.length > co then pySliceLast ctext co else ctext) = strTakeRight ctext co := by
  by_cases h : ctext.length > co
  · simp [h, pySliceLast, hco, strTakeRight]
  · rw [if_neg h]
    have hl : ctext.toList.length - co = 0 := by
      have : ctext.length = ctext.toList.length := rfl
      omega
    unfold strTakeRight
    rw [hl, List.drop_zero, strMk_toList]

/-- The trailing overlap of a chunk text begins any string of the form
`seed ++ " " ++ s` where `seed` is the seed computed at the break. -/
theorem overlap_seed_isPrefixOf (ctext s : String) (co : Nat) :
    (strTakeRight ctext co).toList.isPrefixOf
      ((if ctext.length > co then pySliceLast ctext co else ctext) ++ " " ++ s).toList =
      true := by
  by_cases hco : co = 0
  · subst hco
    have : (strTakeRight ctext 0).toList = [] := by
      simp [strTakeRight, List.drop_length]
    rw [this]
    simp [List.isPrefixOf]
  · rw [overlap_seed_eq ctext co hco, strToList_append, strToList_append,
      List.append_assoc]
    exact isPrefixOf_self_append _ _

/-- Invariant of the chunking loop: if the emitted chunks are chained by
the overlap relation and the open chunk extends the last emitted one,
then the final chunk list is chained by the overlap relation. -/
theorem chunkLoop_chain (cs co : Nat) (meta : Option String)
    (sentences : List String) :
    ∀ (current : List String) (size : Nat) (chunks : List Chunk),
      List.Chain' (overlapRel co) chunks →
      (chunks ≠ [] → current ≠ []) →
      (∀ last, chunks.getLast? = some last → current ≠ [] →
        (strTakeRight last.text co).toList.isPrefixOf (joinSpace current).toList = true) →
      List.Chain' (overlapRel co) (chunkLoop cs co meta sentences current size chunks) := by
  induction sentences with
  | nil =>
      intro current size chunks hchain hne hlink
      show List.Chain' (overlapRel co)
        (if current.isEmpty then chunks
         else chunks ++ [create_chunk (joinSpace current) chunks.length meta])
      by_cases hcur : current.isEmpty
      · simpa [hcur] using hchain
      · have hcur' : current ≠ [] := by
          cases current
          · simp at hcur
          · simp
        rw [if_neg hcur]
        refine List.chain'_append.mpr ⟨hchain, List.chain'_singleton _, ?_⟩
        intro x hx y hy
        simp only [List.head?_cons, Option.mem_def, Option.some.injEq] at hy
        subst hy
        exact hlink x hx hcur'
  | cons s rest ih =>
      intro current size chunks hchain hne hlink
      show List.Chain' (overlapRel co)
        (if size + s.length > cs ∧ ¬ current.isEmpty then _ else _)
      by_cases hbreak : size + s.length > cs ∧ ¬ current.isEmpty
      · rw [if_pos hbreak]
        have hcur' : current ≠ [] := by
          rcases hbreak with ⟨-, h2⟩
          cases current
          · simp at h2
          · simp
        have hchain1 : List.Chain' (overlapRel co)
            (chunks ++ [create_chunk (joinSpace current) chunks.length meta]) := by
          refine List.chain'_append.mpr ⟨hchain, List.chain'_singleton _, ?_⟩
          intro x hx y hy
          simp only [List.head?_cons, Option.mem_def, Option.some.injEq] at hy
          subst hy
          exact hlink x hx hcur'
        refine ih _ _ _ hchain1 (fun _ => by simp) ?_
        intro last hlast _
        rw [List.getLast?_concat] at hlast
        cases hlast
        show (strTakeRight (create_chunk (joinSpace current) chunks.length meta).text
            co).toList.isPrefixOf (joinSpace [_, s]).toList = true
        exact overlap_seed_isPrefixOf (joinSpace current) s co
      · rw [if_neg hbreak]
        refine ih _ _ _ hchain (fun _ => by simp) ?_
        intro last hlast _
        have hcur' : current ≠ [] := hne (by
          intro hc
          rw [hc] at hlast
          simp at hlast)
        rw [joinSpace_append_singleton current s hcur', strToList_append,
          strToList_append, List.append_assoc]
        exact isPrefixOf_extend _ (hlink last hlast hcur')

/-- The chunk list produced by `chunk_text` is chained by the overlap
relation. -/
theorem chunk_text_chain (cs co : Nat) (text : String) (meta : Option String) :
    List.Chain' (overlapRel co) (chunk_text cs co text meta) := by
  unfold chunk_text
  by_cases h : text.isEmpty
  · simp [h]
  · rw [if_neg h]
    exact chunkLoop_chain cs co meta (split_sentences text) [] 0 []
      (by simp) (by simp) (by simp)

/-- C9: for every text and every pair of consecutive chunks emitted by
`chunk_text`, the trailing `chunk_overlap` characters of the earlier
chunk text (all of it, when it is shorter than `chunk_overlap`) are a
prefix of the later chunk text. -/
theorem chunk_overlap_consecutive (chunk_size chunk_overlap : Nat) (text : String)
    (metadata : Option String) (i : Nat)
    (h : i + 1 < (chunk_text chunk_size chunk_overlap text metadata).length) :
    (strTakeRight ((chunk_text chunk_size chunk_overlap text metadata).get
        ⟨i, Nat.lt_of_succ_lt h⟩).text chunk_overlap).toList.isPrefixOf
      ((chunk_text chunk_size chunk_overlap text metadata).get ⟨i + 1, h⟩).text.toList =
      true := by
  have hc := chunk_text_chain chunk_size chunk_overlap text metadata
  exact List.chain'_iff_get.mp hc i (by omega)

/-- Witness for C9 on a concrete three-chunk split. -/
theorem chunk_overlap_consecutive_witness :
    0 + 1 < (chunk_text 4 2 "Hi. Yo. Hey." none).length ∧
    (strTakeRight ((chunk_text 4 2 "Hi. Yo. Hey." none).get ⟨0, by decide⟩).text
        2).toList.isPrefixOf
      ((chunk_text 4 2 "Hi. Yo. Hey." none).get ⟨1, by decide⟩).text.toList = true :=
  ⟨by decide, chunk_overlap_consecutive 4 2 "Hi. Yo. Hey." none 0 (by decide)⟩

/-! ## Claim C5 -/

/-- C5 counterexample: `normalize_url` does NOT strip the trailing slash
of a bare root path: the strip is guarded by `len(parsed.path) > 1` and
the root path is exactly `"/"`, so `https://a.com/` normalizes to
itself, not to `https://a.com` as the claim states. The ASCII
bracket-free input never consults the oracles, instantiated at their
trivial values here. -/
theorem normalize_url_root_counterexample :
    normalize_url trivialIp trivialNfkc "https://a.com/" = some "https://a.com/" ∧
    ¬ normalize_url trivialIp trivialNfkc "https://a.com/" = some "https://a.com" := by
  decide

/-- C5 amended: a bare host stays unchanged, a bare root path KEEPS its
trailing slash, and a non-root path loses exactly one trailing slash —
in general, for any ASCII bracket-free host free of netloc delimiters
and removed bytes, and any final path segment free of netloc delimiters
and removed bytes, `https://host/seg/` normalizes to `https://host/seg`,
whatever the oracles. -/
theorem normalize_url_trailing_slash :
    (∀ (ip : List Char → IpKind) (nfkc : List Char → List Char),
      normalize_url ip nfkc "https://a.com" = some "https://a.com") ∧
    (∀ (ip : List Char → IpKind) (nfkc : List Char → List Char),
      normalize_url ip nfkc "https://a.com/" = some "https://a.com/") ∧
    (∀ (ip : List Char → IpKind) (nfkc : List Char → List Char),
      normalize_url ip nfkc "https://a.com/p/" = some "https://a.com/p") ∧
    ∀ (ip : List Char → IpKind) (nfkc : List Char → List Char) (host seg : List Char),
      (∀ c ∈ host, isNetlocEnd c = false ∧ isUnsafeURLByte c = false ∧
        c ≠ '[' ∧ c ≠ ']' ∧ c.toNat < 128) →
      (∀ c ∈ seg, isNetlocEnd c = false ∧ isUnsafeURLByte c = false) →
      normalize_url ip nfkc
          (String.mk ("https://".toList ++ host ++ ('/' :: (seg ++ ['/'])))) =
        some (String.mk ("https://".toList ++ host ++ ('/' :: seg))) := by
  refine ⟨fun ip nfkc => rfl, fun ip nfkc => rfl, fun ip nfkc => rfl, ?_⟩
  intro ip nfkc host seg hh hs
  have hsch : ∀ r, splitScheme ("https".toList ++ ':' :: r) = some ("https".toList, r) :=
    fun r => rfl
  have hseg : ∀ c ∈ seg, c ≠ '?' ∧ c ≠ '#' := by
    intro c hc
    have h2 := (hs c hc).1
    constructor
    · intro heq
      subst heq
      simp [isNetlocEnd] at h2
    · intro heq
      subst heq
      simp [isNetlocEnd] at h2
  have hhostN : ∀ c ∈ host, isNetlocEnd c = false := fun c hc => (hh c hc).1
  have hPq : ∀ c ∈ ('/' :: (seg ++ ['/']) : List Char), c ≠ '?' := by
    intro c hc
    rcases List.mem_cons.mp hc with h | h
    · subst h
      decide
    · rcases List.mem_append.mp h with h2 | h2
      · exact (hseg c h2).1
      · simp only [List.mem_singleton] at h2
        subst h2
        decide
  have hPh : ∀ c ∈ ('/' :: (seg ++ ['/']) : List Char), c ≠ '#' := by
    intro c hc
    rcases List.mem_cons.mp hc with h | h
    · subst h
      decide
    · rcases List.mem_append.mp h with h2 | h2
      · exact (hseg c h2).2
      · simp only [List.mem_singleton] at h2
        subst h2
        decide
  have hparse := urlsplit_render_exact "https".toList host ('/' :: (seg ++ ['/'])) []
    hsch hhostN hPq hPh (by simp) (by simp)
  have hform : "https://".toList ++ host ++ ('/' :: (seg ++ ['/'])) =
      "https".toList ++ ':' :: '/' :: '/' ::
        (host ++ ('/' :: (seg ++ ['/'])) ++
          (if ([] : List Char).isEmpty then [] else '?' :: [])) := by
    simp
  have hpre : preprocess ("https://".toList ++ host ++ ('/' :: (seg ++ ['/']))) =
      "https://".toList ++ host ++ ('/' :: (seg ++ ['/'])) := by
    apply preprocess_eq_self
    · intro c hc
      rcases List.mem_append.mp hc with h1 | h1
      · rcases List.mem_append.mp h1 with h2 | h2
        · have h3 : c ∈ ['h', 't', 't', 'p', 's', ':', '/', '/'] := h2
          fin_cases h3 <;> rfl
        · exact (hh c h2).2.1
      · rcases List.mem_cons.mp h1 with h2 | h2
        · subst h2
          rfl
        · rcases List.mem_append.mp h2 with h3 | h3
          · exact (hs c h3).2
          · simp only [List.mem_singleton] at h3
            subst h3
            rfl
    · intro c hc
      have h2 : (some 'h' : Option Char) = some c := hc
      have h3 : c = 'h' := (Option.some.inj h2).symm
      subst h3
      rfl
  rw [normalize_url_eq, strToList_mk, hpre, hform, hparse]
  dsimp only
  rw [if_pos (checksOK_plain ip nfkc host
    (fun c hc => ⟨(hh c hc).2.2.1, (hh c hc).2.2.2.1⟩)
    (fun c hc => (hh c hc).2.2.2.2))]
  rw [parseParts_urlparseParts _ (fun hmem => by
    rw [show ('/' :: (seg ++ ['/']) : List Char) = ('/' :: seg) ++ ['/'] from by simp]
    rw [splitparams_concat])]
  unfold stripSlash
  rw [rebuild_parts]
  have hlast : (renderURL "https".toList host ('/' :: (seg ++ ['/'])) []).getLast? =
      some '/' := by
    rw [renderURL_getLast_q0 _ _ _ (by simp)]
    rw [show ('/' :: (seg ++ ['/']) : List Char) = ('/' :: seg) ++ ['/'] from by simp]
    exact List.getLast?_concat _
  rw [if_pos ⟨hlast, by simp⟩]
  rw [renderURL_dropLast_q0 _ _ _ (by simp)]
  have hdl : ('/' :: (seg ++ ['/']) : List Char).dropLast = '/' :: seg := by
    rw [show ('/' :: (seg ++ ['/']) : List Char) = ('/' :: seg) ++ ['/'] from by simp]
    exact List.dropLast_concat
  rw [hdl]
  have hout : renderURL "https".toList host ('/' :: seg) [] =
      "https://".toList ++ host ++ ('/' :: seg) := by
    unfold renderURL
    simp
  rw [hout]

/-- Witness for C5 amended at a concrete host and segment, with concrete
oracles. -/
theorem normalize_url_trailing_slash_witness :
    (∀ c ∈ (['b'] : List Char), isNetlocEnd c = false ∧ isUnsafeURLByte c = false ∧
      c ≠ '[' ∧ c ≠ ']' ∧ c.toNat < 128) ∧
    (∀ c ∈ (['x'] : List Char), isNetlocEnd c = false ∧ isUnsafeURLByte c = false) ∧
    normalize_url trivialIp trivialNfkc
        (String.mk ("https://".toList ++ ['b'] ++ ('/' :: (['x'] ++ ['/'])))) =
      some (String.mk ("https://".toList ++ ['b'] ++ ('/' :: ['x']))) :=
  ⟨by decide, by decide,
    normalize_url_trailing_slash.2.2.2 trivialIp trivialNfkc ['b'] ['x']
      (by decide) (by decide)⟩

/-! ## Claim C6 -/

/-- C6 counterexample: `normalize_url` is not idempotent. Stripping the
single trailing slash of `https://a.com/p//` exposes another slash that
a second application strips too; and the params split of `urlparse`
cuts the `;` suffix off the last path segment, so the slash-stripped
form of `https://a.com/p;/` loses its `;` on a second application. The
ASCII bracket-free inputs never consult the oracles, instantiated at
their trivial values here. -/
theorem normalize_url_idem_counterexample :
    (normalize_url trivialIp trivialNfkc "https://a.com/p//" = some "https://a.com/p/" ∧
      normalize_url trivialIp trivialNfkc "https://a.com/p/" = some "https://a.com/p" ∧
      ¬ ("https://a.com/p" : String) = "https://a.com/p/") ∧
    (normalize_url trivialIp trivialNfkc "https://a.com/p;/" = some "https://a.com/p;" ∧
      normalize_url trivialIp trivialNfkc "https://a.com/p;" = some "https://a.com/p" ∧
      ¬ ("https://a.com/p" : String) = "https://a.com/p;") := by
  decide

/-- C6 amended: the fragment is always removed — no `#` survives in any
successful normalization, and `https://a.com/p#frag` normalizes to
`https://a.com/p` — while a successful normalization is a fixed point
for every URL whose cleaned parse has a scheme and a nonempty netloc,
whose rebuilt `scheme://host/path?query` form does not end in a double
slash, whose query is not the single character `/`, and whose path
carries no `;` (the excluded shapes are exactly those where a second
application strips or cuts again, or where a scheme-less or
netloc-less output can reparse differently). -/
theorem normalize_url_idem_amended :
    (∀ (ip : List Char → IpKind) (nfkc : List Char → List Char) (u r : String),
      normalize_url ip nfkc u = some r → '#' ∉ r.toList) ∧
    (∀ (ip : List Char → IpKind) (nfkc : List Char → List Char),
      normalize_url ip nfkc "https://a.com/p#frag" = some "https://a.com/p") ∧
    ∀ (ip : List Char → IpKind) (nfkc : List Char → List Char) (u : String),
      (urlsplitList (preprocess u.toList)).scheme ≠ [] →
      (urlsplitList (preprocess u.toList)).netloc ≠ [] →
      ¬ endsTwoSlash (rebuild (urlsplitList (preprocess u.toList))) →
      (urlsplitList (preprocess u.toList)).query ≠ ['/'] →
      ';' ∉ (urlsplitList (preprocess u.toList)).path →
      ∀ r, normalize_url ip nfkc u = some r → normalize_url ip nfkc r = some r := by
  refine ⟨?_, fun ip nfkc => rfl, ?_⟩
  · intro ip nfkc u r hr
    rw [normalize_url_eq] at hr
    by_cases hok : urlsplitChecksOK ip nfkc
        (urlsplitList (preprocess u.toList)).netloc = true
    · rw [if_pos hok] at hr
      have hr2 : r = String.mk (stripSlash (parseParts (urlparseParts
          (urlsplitList (preprocess u.toList))))) := (Option.some.inj hr).symm
      rw [hr2, strToList_mk]
      exact hash_not_in_stripSlash_parse _
    · rw [if_neg hok] at hr
      exact absurd hr (by simp)
  · intro ip nfkc u hsc hnet hend hq hsemi r hr
    rw [normalize_url_eq] at hr
    by_cases hok : urlsplitChecksOK ip nfkc
        (urlsplitList (preprocess u.toList)).netloc = true
    · rw [if_pos hok] at hr
      rw [parseParts_urlparseParts _ (fun hmem => absurd hmem hsemi)] at hr
      have hr2 : r = String.mk (normalizeCore (preprocess u.toList)) :=
        (Option.some.inj hr).symm
      have hlfree : ∀ c ∈ preprocess u.toList, isUnsafeURLByte c = false := by
        intro c hc
        have hc2 : c ∈ (u.toList.dropWhile isC0OrSpace).filter
            (fun c => !isUnsafeURLByte c) := hc
        have h2 := (List.mem_filter.mp hc2).2
        simpa using h2
      have hpre : preprocess (normalizeCore (preprocess u.toList)) =
          normalizeCore (preprocess u.toList) :=
        preprocess_normalizeCore _ hlfree hsc
      obtain ⟨hnet2, hpath2⟩ := normalizeCore_parts (preprocess u.toList) hsc hnet hq
      have hidem := normalizeCore_idem (preprocess u.toList) hsc hend hq
      rw [normalize_url_eq, hr2, strToList_mk, hpre]
      rw [if_pos (by rw [hnet2]; exact hok)]
      rw [parseParts_urlparseParts _ (fun hmem => absurd (hpath2 _ hmem) hsemi)]
      rw [show stripSlash (urlsplitList (normalizeCore (preprocess u.toList))) =
          normalizeCore (normalizeCore (preprocess u.toList)) from rfl]
      rw [hidem]
    · rw [if_neg hok] at hr
      exact absurd hr (by simp)

/-- Witness for C6 amended at a concrete URL satisfying the hypotheses,
with concrete oracles. -/
theorem normalize_url_idem_amended_witness :
    (urlsplitList (preprocess "https://a.com/p".toList)).scheme ≠ [] ∧
    (urlsplitList (preprocess "https://a.com/p".toList)).netloc ≠ [] ∧
    ¬ endsTwoSlash (rebuild (urlsplitList (preprocess "https://a.com/p".toList))) ∧
    (urlsplitList (preprocess "https://a.com/p".toList)).query ≠ ['/'] ∧
    ';' ∉ (urlsplitList (preprocess "https://a.com/p".toList)).path ∧
    normalize_url trivialIp trivialNfkc "https://a.com/p" = some "https://a.com/p" ∧
    normalize_url trivialIp trivialNfkc "https://a.com/p" = some "https://a.com/p" :=
  ⟨by decide, by decide, by decide, by decide, by decide, by decide,
    normalize_url_idem_amended.2.2 trivialIp trivialNfkc "https://a.com/p"
      (by decide) (by decide) (by decide) (by decide) (by decide)
      "https://a.com/p" (by decide)⟩

/-! ## Claim C10 -/

/-- The `context_lower` binding of `_detect_data_type` is dead: the
detected category is a function of the query alone. -/
theorem detect_data_type_ignores_context (q c1 c2 : String) :
    detect_data_type q c1 = detect_data_type q c2 := rfl

/-- The `data_type` field of every `extract` result is exactly the
detected category, whatever the LLM oracle does. -/
theorem extract_data_type_eq (f : String → String → String → Option String)
    (q a c : String) :
    (extract f q a c).data_type = detect_data_type q (if c.isEmpty then a else c) := by
  unfold extract
  by_cases h : detect_data_type q (if c.isEmpty then a else c) = "none"
  · simp [h]
  · simp [h]
    cases f a c (detect_data_type q (if c.isEmpty then a else c)) <;> simp

/-- C10: category detection depends only on the query: two `extract`
calls with the same query but arbitrary different answers, contexts and
LLM oracles report the same `data_type`. -/
theorem extract_category_depends_only_on_query
    (f g : String → String → String → Option String)
    (query answer1 context1 answer2 context2 : String) :
    (extract f query answer1 context1).data_type =
      (extract g query answer2 context2).data_type := by
  rw [extract_data_type_eq, extract_data_type_eq]
  exact detect_data_type_ignores_context _ _ _

end UniversalScraper
